import Mathlib

/-!
Shallow embedding of the graph dataframe subsystem (Dataframe.js): edge
canonicalization (`encapsulateEdges`), mask composition (`composeMasks`),
mask pruning (`pruneMaskEdges`), the in-place filter entry point
(`applyDataframeMaskToFilterInPlace`), row access (`getRowAt`), per-column
numeric aggregation and distinct counting (`ColumnAggregation`), and
histogram binning (`calculateBinning` / `histogram`).

Modelling conventions:
* JavaScript numbers are modelled as exact rationals; `JSNum` adds a `none`
  case for `NaN`.  The claims under study are about control flow and exact
  index arithmetic, not floating-point rounding.
* Typed arrays are `List` values; writes `arr[i] = v` become `List.set`
  (like a typed-array write, `List.set` is a no-op out of bounds) and reads
  become `List.getD` / `List.get?`.
* Promise-based code is modelled by explicit state passing; the resolved
  value `false` (the no-op signal) becomes a returned `Bool`.
-/

namespace Spec2Proof

/-- A JavaScript number as stored in a numeric column: `none` is `NaN`,
`some q` is the (finite) number `q`. -/
abbrev JSNum := Option ℚ

/-- Dataframe.js `numberSignifiesUndefined(value)`:
`isNaN(value) || value === 0x7FFFFFFF`. -/
def numberSignifiesUndefined : JSNum → Bool
  | none => true
  | some q => decide (q = 2147483647)

/-- The defined (neither `NaN` nor sentinel) values of a numeric column, in
order.  Used to state aggregation claims. -/
def definedValues (values : List JSNum) : List ℚ :=
  values.filterMap fun v =>
    match v with
    | none => none
    | some q => if q = 2147483647 then none else some q

/-- Sum of the defined values of a numeric column. -/
def definedSum (values : List JSNum) : ℚ :=
  (definedValues values).sum

/-- JavaScript `value < minValue` where the running `minValue` starts at
`Infinity` (`none` models the initial `Infinity`, which every finite value
is below). -/
def ltRunningMin (q : ℚ) : Option ℚ → Bool
  | none => true
  | some m => decide (q < m)

/-- JavaScript `value > maxValue` where the running `maxValue` starts at
`-Infinity` (`none` models the initial `-Infinity`, which every finite
value is above). -/
def gtRunningMax (q : ℚ) : Option ℚ → Bool
  | none => true
  | some m => decide (m < q)

/-- The running-min/max update both aggregation loops duplicate:
`if (value < minValue) { minValue = value; } else if (value > maxValue) { maxValue = value; }`.
The `else if` is translated exactly as written in the source. -/
def stepMinMax (mm : Option ℚ × Option ℚ) (q : ℚ) : Option ℚ × Option ℚ :=
  if ltRunningMin q mm.1 then (some q, mm.2)
  else if gtRunningMax q mm.2 then (mm.1, some q)
  else mm

/-- Running state of `ColumnAggregation.prototype.fixedAllocationNumericAggregations`:
`minValue`/`maxValue` are `none` while still at their initial
`Infinity`/`-Infinity`, and `sum` accumulates the defined values. -/
structure NumAggState where
  minValue : Option ℚ
  maxValue : Option ℚ
  sum : ℚ
deriving DecidableEq, Repr

/-- One iteration of the loop in `fixedAllocationNumericAggregations`:
skip undefined values, update the running min/max, and `sum += value`. -/
def fixedAllocStep (st : NumAggState) (value : JSNum) : NumAggState :=
  match value with
  | none => st
  | some q =>
    if numberSignifiesUndefined (some q) then st
    else
      let mm := stepMinMax (st.minValue, st.maxValue) q
      ⟨mm.1, mm.2, st.sum + q⟩

/-- Result record of the numeric aggregation pass (minValue, maxValue, sum,
averageValue), mirroring the `updateAggregationTo` calls at the end of
`fixedAllocationNumericAggregations`. -/
structure NumericAggregations where
  minValue : Option ℚ
  maxValue : Option ℚ
  sum : ℚ
  averageValue : ℚ
deriving DecidableEq, Repr

/-- `ColumnAggregation.prototype.fixedAllocationNumericAggregations`: a single
pass over `this.column.values` (`numValues` is the full column length) and
`averageValue = sum / numValues`.  (For an empty column the source divides
by zero producing `NaN`; the rational model yields `0` there, so the
average claims carry a non-empty hypothesis.) -/
def fixedAllocationNumericAggregations (values : List JSNum) : NumericAggregations :=
  let st := values.foldl fixedAllocStep ⟨none, none, 0⟩
  ⟨st.minValue, st.maxValue, st.sum, st.sum / (values.length : ℚ)⟩

/-- Running state of `ColumnAggregation.prototype.countDistinct`:
the value-to-count map `distinctCounts` (a JavaScript object, modelled as an
association list in insertion order), `numDistinct`, and the running
min/max (initially `Infinity`/`-Infinity`, modelled as `none`). -/
structure DistinctState where
  distinctCounts : List (ℚ × ℕ)
  numDistinct : ℕ
  minValue : Option ℚ
  maxValue : Option ℚ
deriving DecidableEq, Repr

/-- Lookup `distinctCounts[value]` in the association-list model of the
JavaScript object. -/
def lookupCount (m : List (ℚ × ℕ)) (k : ℚ) : Option ℕ :=
  (m.find? fun p => decide (p.1 = k)).map (·.2)

/-- `distinctCounts[value]++` for a key already present. -/
def bumpCount (m : List (ℚ × ℕ)) (k : ℚ) : List (ℚ × ℕ) :=
  m.map fun p => if p.1 = k then (p.1, p.2 + 1) else p

/-- One iteration of the loop in `countDistinct` (specialised to a numeric
column, where `valueSignifiedUndefined` is `numberSignifiesUndefined`):
skip undefined values, update running min/max (same `else if` shape as the
source), then `if (numDistinct > limit) { continue; }` before touching the
map. -/
def countDistinctStep (limit : ℕ) (st : DistinctState) (value : JSNum) : DistinctState :=
  match value with
  | none => st
  | some q =>
    if numberSignifiesUndefined (some q) then st
    else
      let mm := stepMinMax (st.minValue, st.maxValue) q
      let st2 : DistinctState := { st with minValue := mm.1, maxValue := mm.2 }
      if limit < st2.numDistinct then st2
      else
        match lookupCount st2.distinctCounts q with
        | none =>
          { st2 with
            distinctCounts := st2.distinctCounts ++ [(q, 1)]
            numDistinct := st2.numDistinct + 1 }
        | some _ =>
          { st2 with distinctCounts := bumpCount st2.distinctCounts q }

/-- The single pass of `ColumnAggregation.prototype.countDistinct(limit)`
over the column values (before the `isCategorical` switch). -/
def countDistinctRun (limit : ℕ) (values : List JSNum) : DistinctState :=
  values.foldl (countDistinctStep limit) ⟨[], 0, none, none⟩

/-- Column data types relevant to the `isCategorical` switch in
`countDistinct`. -/
inductive DataTypeT where
  | string
  | integer
  | number
  | date
deriving DecidableEq, Repr

/-- The `isCategorical` switch at the end of `countDistinct`: strings need
`numDistinct <= limit`; integers additionally need `minValue` in `{0, 1}`
and `maxValue - minValue === numDistinct - 1`. -/
def isCategoricalOf (limit : ℕ) (dataType : DataTypeT) (st : DistinctState) : Bool :=
  match dataType with
  | .string => decide (st.numDistinct ≤ limit)
  | .integer =>
    decide (st.numDistinct ≤ limit) &&
      (match st.minValue, st.maxValue with
       | some mn, some mx =>
         (decide (mn = 0) || decide (mn = 1)) && decide (mx - mn = (st.numDistinct : ℚ) - 1)
       | _, _ => false)
  | _ => false

/-- Truncation toward zero, JavaScript `x | 0` for values within 32-bit
range (the in-scope bin ids are small non-negative numbers, where `| 0`
is exact truncation). -/
def jsTrunc (q : ℚ) : ℤ :=
  if 0 ≤ q then ⌊q⌋ else -⌊-q⌋

/-- Dataframe.js helper `round_down(num, multiple)`. -/
def round_down (num multiple : ℚ) : ℚ :=
  if multiple = 0 then num else multiple * ⌊num / multiple⌋

/-- Dataframe.js helper `round_up(num, multiple)`. -/
def round_up (num multiple : ℚ) : ℚ :=
  if multiple = 0 then num else multiple * ⌈num / multiple⌉

/-- Result of `Dataframe.prototype.calculateBinning`.  The source's
`defaultBinning` sets `minValue`/`maxValue` to `-Infinity`/`Infinity`; the
model flags it with `isDefault` instead (its `numBins` is 1, which the
histogram claims exclude). -/
structure Binning where
  numBins : ℕ
  binWidth : ℚ
  minValue : ℚ
  maxValue : ℚ
  isCountBy : Bool
  isDefault : Bool
deriving DecidableEq, Repr

/-- Ceiling of the real square root of a natural number, JavaScript
`Math.ceil(Math.sqrt(n))`. -/
def natSqrtCeil (n : ℕ) : ℕ :=
  if Nat.sqrt n * Nat.sqrt n = n then Nat.sqrt n else Nat.sqrt n + 1

/-- Fuel-driven ceiling base-2 logarithm: `clog2Aux fuel n` is
`ceil(log2 n)` whenever `n ≤ fuel` (each step halves `n`, rounding up). -/
def clog2Aux : ℕ → ℕ → ℕ
  | 0, _ => 0
  | fuel + 1, n => if n ≤ 1 then 0 else clog2Aux fuel ((n + 1) / 2) + 1

/-- Ceiling base-2 logarithm (structural recursion, so concrete binnings
evaluate). -/
def clog2 (n : ℕ) : ℕ := clog2Aux n n

/-- The goal bin count of `calculateBinning`:
`numValues > 30 ? ceil(log2(numValues)) + 1 : ceil(sqrt(numValues))`,
clamped into `[8, 30]`.  `Math.log(n)/Math.log(2)` is modelled by the
exact ceiling base-2 logarithm. -/
def goalBinsFor (numValues : ℕ) : ℕ :=
  let g := if 30 < numValues then clog2 numValues + 1 else natSqrtCeil numValues
  max 8 (min g 30)

/-- Fuel bound for the width-adjustment loops of `calculateBinning` (the
source loops terminate through floating-point dynamics; exhausting fuel
returns the degenerate default binning, whose `numBins = 1` the claims
exclude). -/
def binningFuel : ℕ := 200

/-- The first width-adjustment loop of `calculateBinning`:
`while (numBins < 2 || numBins >= 100) { binWidth *= (numBins < 2 ? 0.1 : 10); numBins = range / binWidth; }`. -/
def approxWidthLoop (range : ℚ) : ℚ → ℕ → Option ℚ
  | _, 0 => none
  | w, fuel + 1 =>
    let numBins := range / w
    if numBins < 2 then approxWidthLoop range (w * (1 / 10)) fuel
    else if 100 ≤ numBins then approxWidthLoop range (w * 10) fuel
    else some w

/-- The refinement loop of `calculateBinning`:
`while (numBins < minBins || numBins > goalBins) { binWidth *= (numBins < minBins ? 1/2 : 2); numBins = range / binWidth; }`. -/
def refineWidthLoop (range : ℚ) (minBins goalBins : ℕ) : ℚ → ℕ → Option ℚ
  | _, 0 => none
  | w, fuel + 1 =>
    let numBins := range / w
    if numBins < (minBins : ℚ) then refineWidthLoop range minBins goalBins (w / 2) fuel
    else if (goalBins : ℚ) < numBins then refineWidthLoop range minBins goalBins (w * 2) fuel
    else some w

/-- `Dataframe.prototype.calculateBinning(aggregations, numValues, goalNumberOfBins)`.
`minValue`/`maxValue`/`countDistinct`/`isIntegral` are the aggregation
values the source reads; they are taken finite, matching the call site
(`histogram` returns `nodata` before binning when `countDistinct === 0`).
`goalNumberOfBins = 0` encodes an absent (falsy) argument.  The
`min === Infinity || max === -Infinity` guard of the third path reduces to
the `numBins < 0` (negative range) check in the finite model. -/
def calculateBinning (minValue maxValue : ℚ) (countDistinct : ℕ) (isIntegral : Bool)
    (numValues : ℕ) (goalNumberOfBins : ℕ) : Binning :=
  let goalBins := goalBinsFor numValues
  let range := maxValue - minValue
  let defaultB : Binning := ⟨1, 1, 0, 0, false, true⟩
  if countDistinct < 30 ∧ isIntegral then
    { numBins := numValues
      binWidth := range / ((numValues : ℚ) - 1)
      minValue := minValue
      maxValue := maxValue
      isCountBy := decide (range ≤ 30)
      isDefault := false }
  else if goalNumberOfBins ≠ 0 then
    { numBins := goalNumberOfBins
      binWidth := range / ((goalNumberOfBins : ℚ) - 1)
      minValue := minValue
      maxValue := maxValue
      isCountBy := false
      isDefault := false }
  else if range < 0 then defaultB
  else
    match approxWidthLoop range 10 binningFuel with
    | none => defaultB
    | some w1 =>
      let minBins := max 3 (goalBins / 2 - 1)
      match refineWidthLoop range minBins goalBins w1 binningFuel with
      | none => defaultB
      | some w =>
        let bottomVal := round_down minValue w
        let topVal := round_up maxValue w
        { numBins := (⌊(topVal - bottomVal) / w⌋).toNat + 1
          binWidth := w
          minValue := bottomVal
          maxValue := topVal
          isCountBy := false
          isDefault := false }

/-- The zero-width guard at the start of `Dataframe.prototype.histogram`:
`if (max === min) { binWidth = 1; numBins = 1; topVal = min + 1; bottomVal = min; }`. -/
def histogramAdjustBinning (b : Binning) : Binning :=
  if b.maxValue = b.minValue then
    { b with binWidth := 1, numBins := 1, maxValue := b.minValue + 1 }
  else b

/-- The bin id computed in the bucketing loop of `histogram`:
`binId = ((value - bottomVal) / binWidth) | 0`. -/
def histogramBinId (b : Binning) (value : ℚ) : ℤ :=
  jsTrunc ((value - b.minValue) / b.binWidth)

/-- The bucketing loop of `histogram` over an index subset:
`value = values[indices[i]]`, undefined values are skipped, and
`bins[binId]++`.  (`List.set` drops an out-of-bounds increment; the claims
prove in-bounds, making this exact.) -/
def histogramCounts (b : Binning) (values : List JSNum) (indices : List ℕ) : List ℕ :=
  indices.foldl
    (fun bins idx =>
      match values.getD idx none with
      | none => bins
      | some q =>
        if numberSignifiesUndefined (some q) then bins
        else
          let binId := (histogramBinId b q).toNat
          bins.set binId (bins.getD binId 0 + 1))
    (List.replicate b.numBins 0)

/-- The two graph component types (`GraphComponentTypes = ['point', 'edge']`). -/
inductive ComponentType where
  | point
  | edge
deriving DecidableEq, Repr

/-- The slice of a `Dataframe` instance the verified operations read: raw
element counts and the raw forwards-edge encapsulation data
(`rawdata.hostBuffers.forwardsEdges.edgesTyped`, stored sorted by source,
and its `edgePermutationInverseTyped`). -/
structure Dataframe where
  numPoints : ℕ
  numEdges : ℕ
  forwardsEdgesTyped : List (ℕ × ℕ)
  forwardsEdgePermutationInverse : List ℕ
deriving DecidableEq, Repr

/-- Modelled from the spec: `DataframeMask` (its source file DataframeMask.js
is not part of the provided sources).  Per spec section 4.1 a mask holds
optional ordered global-index sequences for points and edges, where
`undefined` (`none`) means the full range. -/
structure DataframeMask where
  point : Option (List ℕ)
  edge : Option (List ℕ)
deriving DecidableEq, Repr

/-- Modelled from the spec: the point indexes a mask's `mapPointIndexes`
iterates, ascending; a `none` (full) mask iterates `0..numPoints-1`
computed lazily from `numElements`. -/
def DataframeMask.pointIndexes (df : Dataframe) (m : DataframeMask) : List ℕ :=
  m.point.getD (List.range df.numPoints)

/-- Modelled from the spec: the edge indexes a mask's `mapEdgeIndexes`
iterates, ascending; a `none` (full) mask iterates `0..numEdges-1`. -/
def DataframeMask.edgeIndexes (df : Dataframe) (m : DataframeMask) : List ℕ :=
  m.edge.getD (List.range df.numEdges)

/-- Modelled from the spec: `getIndexByType(type, localIndex)` translates a
local position to a global index - the identity when the mask side is full
(`undefined`), otherwise an array read (`none` for an out-of-bounds read,
JavaScript `undefined`). -/
def DataframeMask.getIndexByType (m : DataframeMask) (type : ComponentType) (i : ℕ) : Option ℕ :=
  match type with
  | .point =>
    match m.point with
    | none => some i
    | some l => l.get? i
  | .edge =>
    match m.edge with
    | none => some i
    | some l => l.get? i

/-- `Dataframe.prototype.fullDataframeMask()`: both sides `undefined`. -/
def fullDataframeMask : DataframeMask := ⟨none, none⟩

/-- `Dataframe.prototype.pruneMaskEdges(oldMask)`: keep the old point set,
and keep exactly the edges (sorted forwards indexing into
`rawdata.hostBuffers.forwardsEdges.edgesTyped`) whose two endpoints are in
the old mask's point set (the source builds a presence hash of the point
indexes and tests `pointMaskOriginalLookup[src] && ...[dst]`; an
out-of-bounds edge index reads `undefined` endpoints, which fail the
lookup and are dropped). -/
def pruneMaskEdges (df : Dataframe) (oldMask : DataframeMask) : DataframeMask :=
  let pointMaskOriginalLookup := oldMask.pointIndexes df
  let edgeMask := (oldMask.edgeIndexes df).filter fun edgeIdx =>
    match df.forwardsEdgesTyped.get? edgeIdx with
    | none => false
    | some e => decide (e.1 ∈ pointMaskOriginalLookup) && decide (e.2 ∈ pointMaskOriginalLookup)
  ⟨oldMask.point, some edgeMask⟩

/-- The `limits` argument of `composeMasks`: a JavaScript object whose
`point`/`edge` keys may each be absent (outer `none`) or hold `Infinity`
(inner `none`) or a finite limit. -/
structure Limits where
  point : Option (Option ℕ)
  edge : Option (Option ℕ)
deriving DecidableEq, Repr

/-- `numMasksSatisfiedByID[idx]++` on a `Uint8Array` counter (wrap-around
at 256; out-of-bounds writes are dropped, like on a typed array). -/
def bumpCounter8 (sat : List ℕ) (idx : ℕ) : List ℕ :=
  sat.set idx ((sat.getD idx 0 + 1) % 256)

/-- `numMasksSatisfiedByID[idx] = 0` (exclusion hit). -/
def zeroCounter (sat : List ℕ) (idx : ℕ) : List ℕ :=
  sat.set idx 0

/-- `targetMask.length >= limit` with `limit` possibly `Infinity` (`none`). -/
def limitReachedB : Option ℕ → ℕ → Bool
  | none, _ => false
  | some k, l => decide (k ≤ l)

/-- The result-collection loop of `composeMasks` for one component type:
`for (i = 0; i < sat.length; i++) { if (sat[i] === numMasks) push(i); if (length >= limit) break; }`. -/
def collectGo (sat : List ℕ) (numMasks : ℕ) (limit : Option ℕ) : List ℕ → List ℕ → List ℕ
  | [], acc => acc
  | i :: rest, acc =>
    let acc2 := if sat.getD i 0 = numMasks then acc ++ [i] else acc
    if limitReachedB limit acc2.length then acc2
    else collectGo sat numMasks limit rest acc2

/-- Runs the collection loop over all counter slots of one component type. -/
def collectIndices (sat : List ℕ) (numMasks : ℕ) (limit : Option ℕ) : List ℕ :=
  collectGo sat numMasks limit (List.range sat.length) []

/-- Outcome of `Dataframe.prototype.composeMasks`, including the post-call
contents of the caller-owned mutable arguments: `selectionMasksAfter` is
the caller's `selectionMasks` array after the call (the source truncates
it in place with `selectionMasks.length = 255` when over the limit), and
`limitsAfter` is the caller's `limits` object after the call (the source
writes `Infinity` into missing keys; `none` means the caller passed no
object, in which case a fresh local object is used). -/
structure ComposeResult where
  mask : DataframeMask
  selectionMasksAfter : List DataframeMask
  limitsAfter : Option Limits
deriving DecidableEq, Repr

/-- `Dataframe.prototype.composeMasks(selectionMasks, exclusionMasks, limits)`:
fill missing limits with `Infinity`; an empty `selectionMasks` becomes a
single universal mask (reassigning the local variable only); `numMasks`
snapshots the length BEFORE the over-limit truncation (the source never
updates it afterwards); more than 255 masks truncate the caller's array in
place; per-index `Uint8Array` counters are incremented per selection mask
and zeroed per exclusion mask; each component type collects the indices
whose counter equals `numMasks`, stopping at its limit. -/
def composeMasks (df : Dataframe) (selectionMasks exclusionMasks : List DataframeMask)
    (limits : Option Limits) : ComposeResult :=
  let limitsFilled : Limits :=
    match limits with
    | none => ⟨some none, some none⟩
    | some l => ⟨some (l.point.getD none), some (l.edge.getD none)⟩
  let limitsAfter : Option Limits :=
    match limits with
    | none => none
    | some _ => some limitsFilled
  let selReplaced :=
    if selectionMasks.isEmpty then [fullDataframeMask] else selectionMasks
  let numMasks := selReplaced.length
  let sel :=
    if 255 < selReplaced.length then selReplaced.take 255 else selReplaced
  let selectionMasksAfter :=
    if 255 < selectionMasks.length then selectionMasks.take 255 else selectionMasks
  let satPoint :=
    sel.foldl (fun sat m => (m.pointIndexes df).foldl bumpCounter8 sat)
      (List.replicate df.numPoints 0)
  let satEdge :=
    sel.foldl (fun sat m => (m.edgeIndexes df).foldl bumpCounter8 sat)
      (List.replicate df.numEdges 0)
  let satPoint2 :=
    exclusionMasks.foldl (fun sat m => (m.pointIndexes df).foldl zeroCounter sat) satPoint
  let satEdge2 :=
    exclusionMasks.foldl (fun sat m => (m.edgeIndexes df).foldl zeroCounter sat) satEdge
  let pointResult := collectIndices satPoint2 numMasks (limitsFilled.point.getD none)
  let edgeResult := collectIndices satEdge2 numMasks (limitsFilled.edge.getD none)
  ⟨⟨some pointResult, some edgeResult⟩, selectionMasksAfter, limitsAfter⟩

/-- The per-type limit `composeMasks` effectively enforces for points:
`Infinity` (`none`) when the caller passed no limits object or left the
key absent. -/
def effectivePointLimit : Option Limits → Option ℕ
  | none => none
  | some l => l.point.getD none

/-- The per-type limit `composeMasks` effectively enforces for edges. -/
def effectiveEdgeLimit : Option Limits → Option ℕ
  | none => none
  | some l => l.edge.getD none

/-- A caller-held mask object reference for the filter entry point: `refId`
models JavaScript reference identity (the `===` comparison against
`this.lastMasks`), alongside the mask contents. -/
structure MaskRef where
  refId : ℕ
  point : Option (List ℕ)
  edge : Option (List ℕ)
deriving DecidableEq, Repr

/-- The contents of a `MaskRef` as a `DataframeMask`. -/
def MaskRef.val (m : MaskRef) : DataframeMask := ⟨m.point, m.edge⟩

/-- The dataframe state observed by
`applyDataframeMaskToFilterInPlace`: the identity and contents of the
dataframe-owned `this.lastMasks` object (constructed once in the
`Dataframe` constructor; the filter pass assigns `lastMasks.point` and
`lastMasks.edge` but never rebinds `this.lastMasks`, so `lastMasksId`
never changes), an abstract generation counter for `this.data` (replaced
by a fresh `newData` object on a full pass), a representative
`simulator.versions.buffers` counter, and `simulator.versions.tick`. -/
structure FilterState where
  lastMasksId : ℕ
  lastMasksPoint : Option (List ℕ)
  lastMasksEdge : Option (List ℕ)
  dataGeneration : ℕ
  bufferVersions : ℕ
  tick : ℕ
deriving DecidableEq, Repr

/-- `Dataframe.prototype.applyDataframeMaskToFilterInPlace(masks, simulator)`
as a state transition.  Returns `false` (the resolved no-op value) when
`masks === this.lastMasks` or when the raw simulator
forwards/backwards edge-weight buffers are not yet populated; otherwise it
performs the filter pass: translating the mask's sorted edge indices
through `edgePermutationInverseTyped` (a `Uint32Array` stores an
out-of-bounds `undefined` read as 0) and numerically sorting them, bumping
every buffer version counter and the tick, replacing `this.data`, and
assigning `lastMasks.point`/`lastMasks.edge` in place. -/
def applyDataframeMaskToFilterInPlace (df : Dataframe) (st : FilterState) (masks : MaskRef)
    (forwardsEdgeWeightsReady backwardsEdgeWeightsReady : Bool) : FilterState × Bool :=
  if masks.refId = st.lastMasksId then (st, false)
  else if ¬ (forwardsEdgeWeightsReady = true ∧ backwardsEdgeWeightsReady = true) then (st, false)
  else
    let unsortedEdgeMask :=
      List.insertionSort (· ≤ ·)
        ((masks.val.edgeIndexes df).map fun e => df.forwardsEdgePermutationInverse.getD e 0)
    ({ st with
        dataGeneration := st.dataGeneration + 1
        bufferVersions := st.bufferVersions + 1
        tick := st.tick + 1
        lastMasksPoint := masks.point
        lastMasksEdge := some unsortedEdgeMask }, true)

/-- The index computation of `Dataframe.prototype.getRowAt(index, type, ...)`:
`if (index && type === 'edge') index = forwardsEdgePermutationInverse[index];`
(the truthiness test skips the translation at sorted index 0), then
`index = this.lastMasks.getIndexByType(type, index)`. -/
def getRowAtIndex (df : Dataframe) (lastMasks : DataframeMask) (index : ℕ)
    (type : ComponentType) : Option ℕ :=
  let idx1 : Option ℕ :=
    if index ≠ 0 ∧ type = ComponentType.edge then df.forwardsEdgePermutationInverse.get? index
    else some index
  idx1.bind fun i => lastMasks.getIndexByType type i

/-- The per-attribute read of `getRowAt`: `row[key] = attributes[key].values[index]`
at the translated index (`none` models `undefined`). -/
def getRowAtColumnValue {α : Type} (df : Dataframe) (lastMasks : DataframeMask) (index : ℕ)
    (type : ComponentType) (colValues : List α) : Option α :=
  (getRowAtIndex df lastMasks index type).bind colValues.get?

/-- One entry of `workItemsTyped` (the source packs them four `Int32`s per
point: `[firstEdgeIndex, count, pointId, unused]`). -/
structure WorkItem where
  start : ℤ
  count : ℕ
  src : ℕ
deriving DecidableEq, Repr

/-- The comparator of `computeEdgeList`'s sort of the identity index array:
`(a, b) => edges[a*2] - edges[b*2] || edges[a*2+1] - edges[b*2+1]`, i.e.
lexicographic by (source, destination).  (The engine's ordering of exact
ties is unspecified; the model fixes the stable insertion-sort order,
which satisfies the comparator.) -/
def edgeSortLE (edges : List (ℕ × ℕ)) (a b : ℕ) : Prop :=
  toLex (edges.getD a (0, 0)) ≤ toLex (edges.getD b (0, 0))

instance (edges : List (ℕ × ℕ)) : DecidableRel (edgeSortLE edges) := fun a b =>
  inferInstanceAs (Decidable (toLex (edges.getD a (0, 0)) ≤ toLex (edges.getD b (0, 0))))

instance (edges : List (ℕ × ℕ)) : IsTotal ℕ (edgeSortLE edges) :=
  ⟨fun a b => le_total (toLex (edges.getD a (0, 0))) (toLex (edges.getD b (0, 0)))⟩

instance (edges : List (ℕ × ℕ)) : IsTrans ℕ (edgeSortLE edges) :=
  ⟨fun _ _ _ hab hbc => le_trans hab hbc⟩

/-- `computeEdgeList`'s `mapped` array (named `originals` by the caller):
the identity array `[0 .. numEdges)` sorted by the edge comparator. -/
def computeEdgeListMapped (edges : List (ℕ × ℕ)) : List ℕ :=
  List.insertionSort (edgeSortLE edges) (List.range edges.length)

/-- `computeEdgeList`'s `edgeListTyped`: the edge pairs permuted into sorted
order, `edgeListTyped[i] = edges[mapped[i]]` (the source copies each pair
with a single 64-bit store). -/
def computeEdgeListTyped (edges : List (ℕ × ℕ)) : List (ℕ × ℕ) :=
  (computeEdgeListMapped edges).map fun i => edges.getD i (0, 0)

/-- The cursor-driven scan of `computeWorkItemsTyped`: `rest` is the sorted
edge list from the cursor onward (so its head's source is the cached
`edgeListLastSrc`, `none` when exhausted), `i` the current point id, `pos`
the cursor offset, and `todo` the remaining point count.  A point whose id
matches the cursor's source consumes its run of edges
(`while (pos < numEdges && edgesTyped[pos*2] === i) count++`), otherwise
it records `(-1, 0, i)`. -/
def computeWorkItemsGo : ℕ → ℕ → ℕ → List (ℕ × ℕ) → List WorkItem
  | 0, _, _, _ => []
  | todo + 1, i, pos, rest =>
    match rest.head? with
    | some e =>
      if e.1 = i then
        let run := rest.takeWhile fun e2 => decide (e2.1 = i)
        ⟨(pos : ℤ), run.length, i⟩ ::
          computeWorkItemsGo todo (i + 1) (pos + run.length)
            (rest.dropWhile fun e2 => decide (e2.1 = i))
      else ⟨-1, 0, i⟩ :: computeWorkItemsGo todo (i + 1) pos rest
    | none => ⟨-1, 0, i⟩ :: computeWorkItemsGo todo (i + 1) pos rest

/-- `computeWorkItemsTyped(edgesTyped, originals, numPoints)` over the
sorted edge list. -/
def computeWorkItemsTyped (edgesTyped : List (ℕ × ℕ)) (numPoints : ℕ) : List WorkItem :=
  computeWorkItemsGo numPoints 0 0 edgesTyped

/-- A sequence of indexed stores `arr[pos] = val` into a typed array
(out-of-bounds stores are dropped, as on a typed array). -/
def applyWrites (arr : List ℕ) (ws : List (ℕ × ℕ)) : List ℕ :=
  ws.foldl (fun a w => a.set w.1 w.2) arr

/-- A 32-bit unsigned store of a possibly negative integer (`Uint32Array`
wraps: storing `-1` reads back `4294967295`). -/
def u32ofInt (z : ℤ) : ℕ :=
  (z % 4294967296).toNat

/-- `computeEdgeStartEndIdxs(workItemsTyped, edgesTyped, ...)`: per point a
`(start, end)` pair where `end` is the next point-with-edges' start (the
inner `while` scans forward past degree-0 points), `numEdges` when no
later point has edges, and `(-1, -1)` (stored into a `Uint32Array`, hence
wrapped) for degree-0 points; the last point is special-cased against the
total edge count. -/
def computeEdgeStartEndIdxs (wis : List WorkItem) (numEdges : ℕ) : List (ℕ × ℕ) :=
  if wis.length = 0 then []
  else
    let body := (List.range (wis.length - 1)).map fun i =>
      let w := wis.getD i ⟨-1, 0, 0⟩
      if w.start = -1 then (u32ofInt (-1), u32ofInt (-1))
      else
        let e :=
          match (wis.drop (i + 1)).find? fun x => decide (0 ≤ x.start) with
          | some x => x.start.toNat
          | none => numEdges
        (w.start.toNat, e)
    let last :=
      match wis.getLast? with
      | some w =>
        if w.start ≠ -1 then (w.start.toNat, numEdges)
        else (u32ofInt (-1), u32ofInt (-1))
      | none => (u32ofInt (-1), u32ofInt (-1))
    body ++ [last]

/-- The record returned by `Dataframe.prototype.encapsulateEdges` (fields
the claims reference, in source order). -/
structure EdgeEncapsulation where
  degreesTyped : List ℕ
  edgesTyped : List (ℕ × ℕ)
  edgePermutation : List ℕ
  edgePermutationInverseTyped : List ℕ
  workItemsTyped : List WorkItem
  srcToWorkItem : List ℕ
  edgeStartEndIdxsTyped : List (ℕ × ℕ)
deriving DecidableEq, Repr

/-- `Dataframe.prototype.encapsulateEdges(edges, numPoints, ...)` on the
first-time path (the incremental path is disabled in the source by
`if (false && ...)`): sort the edges by (src, dst) recording the
permutation `originals`; invert it into `edgePermutation`
(`_.each(inverse, (val, i) => perm[val] = i)` over a zero-initialised
`Uint32Array`); scan for work items; then scatter
`degreesTyped[workItems[i].src] = workItems[i].count` and
`srcToWorkItem[workItems[i].src] = i` over zero-initialised arrays. -/
def encapsulateEdges (edges : List (ℕ × ℕ)) (numPoints : ℕ) : EdgeEncapsulation :=
  let edgesTyped := computeEdgeListTyped edges
  let originals := computeEdgeListMapped edges
  let edgePermutationInverseTyped := originals
  let edgePermutationTyped :=
    applyWrites (List.replicate edges.length 0) (originals.enum.map fun p => (p.2, p.1))
  let workItemsTyped := computeWorkItemsTyped edgesTyped numPoints
  let degreesTyped :=
    applyWrites (List.replicate numPoints 0) (workItemsTyped.map fun wi => (wi.src, wi.count))
  let srcToWorkItem :=
    applyWrites (List.replicate numPoints 0) (workItemsTyped.enum.map fun p => (p.2.src, p.1))
  let edgeStartEndIdxsTyped := computeEdgeStartEndIdxs workItemsTyped edges.length
  ⟨degreesTyped, edgesTyped, edgePermutationTyped, edgePermutationInverseTyped,
    workItemsTyped, srcToWorkItem, edgeStartEndIdxsTyped⟩

/-! ## Helper lemmas for the aggregation pass -/

/-- A defined value contributes itself to `definedSum`; skipped values
contribute nothing. -/
theorem definedSum_cons (v : JSNum) (vs : List JSNum) :
    definedSum (v :: vs) =
      (match v with
       | none => 0
       | some q => if q = 2147483647 then 0 else q) + definedSum vs := by
  cases v with
  | none => simp [definedSum, definedValues]
  | some q =>
    by_cases h : q = 2147483647 <;>
      simp [definedSum, definedValues, List.filterMap_cons, h]

/-- The fold of `fixedAllocStep` accumulates exactly the defined values
into `sum`. -/
theorem foldl_fixedAllocStep_sum (values : List JSNum) (st : NumAggState) :
    (values.foldl fixedAllocStep st).sum = st.sum + definedSum values := by
  induction values generalizing st with
  | nil => simp [definedSum, definedValues]
  | cons v vs ih =>
    rw [List.foldl_cons, ih, definedSum_cons]
    cases v with
    | none => simp [fixedAllocStep]
    | some q =>
      by_cases h : q = 2147483647
      · simp [fixedAllocStep, numberSignifiesUndefined, h]
      · simp only [fixedAllocStep, numberSignifiesUndefined, h, decide_False,
          Bool.false_eq_true, if_false]
        ring

/-! ## C6: the numeric average divides by the total scanned length -/

/-- C6: for every numeric column, `fixedAllocationNumericAggregations` sets
`sum` to the sum of the defined values and `averageValue` to that sum
divided by the TOTAL number of values in the column (the scanned length,
counting undefined positions), not by the count of defined values. -/
theorem fixedAlloc_average_total_denominator (values : List JSNum)
    (h : 0 < values.length) :
    (fixedAllocationNumericAggregations values).sum = definedSum values ∧
      (fixedAllocationNumericAggregations values).averageValue =
        definedSum values / (values.length : ℚ) := by
  have hsum : (values.foldl fixedAllocStep ⟨none, none, 0⟩).sum = definedSum values := by
    rw [foldl_fixedAllocStep_sum]; ring
  exact ⟨hsum, by simp [fixedAllocationNumericAggregations, hsum]⟩

/-- Witness for C6 at the column `[1, NaN]`: the average is `1 / 2`, the sum
of defined values over the total length 2. -/
theorem fixedAlloc_average_total_denominator_witness :
    0 < ([some 1, none] : List JSNum).length ∧
      ((fixedAllocationNumericAggregations [some 1, none]).sum =
          definedSum [some 1, none] ∧
        (fixedAllocationNumericAggregations [some 1, none]).averageValue =
          definedSum [some 1, none] / (([some 1, none] : List JSNum).length : ℚ)) :=
  ⟨by decide, fixedAlloc_average_total_denominator [some 1, none] (by decide)⟩

/-! ## C5: the single-pass max is broken for decreasing sequences -/

/-- C5 (code bug): on the all-defined, strictly decreasing column
`[3, 2, 1]` the numeric aggregation leaves `maxValue` at its initial
`-Infinity` (`none`) — each new minimum takes the `if` branch and the
`else if` for the maximum never runs — although the maximum of the defined
values is 3; `minValue` is still correct. -/
theorem fixedAlloc_decreasing_max_bug :
    (fixedAllocationNumericAggregations [some 3, some 2, some 1]).maxValue = none ∧
      (fixedAllocationNumericAggregations [some 3, some 2, some 1]).minValue = some 1 ∧
      (definedValues [some 3, some 2, some 1]).maximum = some 3 := by
  decide

/-! ## C4: the distinct-count cap freezes the whole map -/

/-- Once `numDistinct` exceeds `limit`, one more loop iteration changes
neither the map nor `numDistinct` (the `continue` skips the increment of
already-seen keys too; only the running min/max still update). -/
theorem countDistinctStep_frozen (limit : ℕ) (st : DistinctState) (v : JSNum)
    (h : limit < st.numDistinct) :
    (countDistinctStep limit st v).distinctCounts = st.distinctCounts ∧
      (countDistinctStep limit st v).numDistinct = st.numDistinct := by
  cases v with
  | none => exact ⟨rfl, rfl⟩
  | some q =>
    by_cases hu : numberSignifiesUndefined (some q)
    · simp [countDistinctStep, hu]
    · simp [countDistinctStep, hu, h]

/-- C4 (amended): once a prefix of the column has pushed `numDistinct` past
`limit`, the remaining values leave `distinctValues` entirely unchanged —
the pass stops adding new distinct keys AND stops incrementing the counts
of already-seen keys (the claim asserted the latter continue). -/
theorem countDistinct_cap_freezes_map (limit : ℕ) (pre suf : List JSNum)
    (h : limit < (countDistinctRun limit pre).numDistinct) :
    (countDistinctRun limit (pre ++ suf)).distinctCounts =
        (countDistinctRun limit pre).distinctCounts ∧
      (countDistinctRun limit (pre ++ suf)).numDistinct =
        (countDistinctRun limit pre).numDistinct := by
  have aux : ∀ (l : List JSNum) (st : DistinctState), limit < st.numDistinct →
      (l.foldl (countDistinctStep limit) st).distinctCounts = st.distinctCounts ∧
        (l.foldl (countDistinctStep limit) st).numDistinct = st.numDistinct := by
    intro l
    induction l with
    | nil => exact fun st _ => ⟨rfl, rfl⟩
    | cons v vs ih =>
      intro st hst
      have hstep := countDistinctStep_frozen limit st v hst
      have := ih (countDistinctStep limit st v) (hstep.2 ▸ hst)
      exact ⟨this.1.trans hstep.1, this.2.trans hstep.2⟩
  unfold countDistinctRun at h ⊢
  rw [List.foldl_append]
  exact aux suf _ h

/-- Witness for C4 (amended) with `limit = 1`: after the prefix `[0, 1]`
has produced 2 distinct values, the extra occurrence of the already-seen
key 0 leaves the map unchanged (its count stays 1). -/
theorem countDistinct_cap_freezes_map_witness :
    1 < (countDistinctRun 1 [some 0, some 1]).numDistinct ∧
      ((countDistinctRun 1 ([some 0, some 1] ++ [some 0])).distinctCounts =
          (countDistinctRun 1 [some 0, some 1]).distinctCounts ∧
        (countDistinctRun 1 ([some 0, some 1] ++ [some 0])).numDistinct =
          (countDistinctRun 1 [some 0, some 1]).numDistinct) :=
  ⟨by decide, countDistinct_cap_freezes_map 1 [some 0, some 1] [some 0] (by decide)⟩

/-- C4 (counterexample): with `limit = 1` and column `[0, 1, 0]`, the limit
is exceeded when 1 arrives, and the final occurrence of the already-seen
key 0 does NOT increment its count: it stays 1 where the claim requires 2. -/
theorem countDistinct_no_increment_counterexample :
    lookupCount ((countDistinctRun 1 [some 0, some 1, some 0]).distinctCounts) 0 = some 1 ∧
      lookupCount ((countDistinctRun 1 [some 0, some 1, some 0]).distinctCounts) 0 ≠ some 2 := by
  decide

/-! ## C9: getRowAt skips the edge-index translation at sorted index 0 -/

/-- C9: `getRowAt` applies the sorted-to-unsorted translation through
`edgePermutationInverseTyped` only when the index is truthy: at sorted
edge index 0 the translation is skipped — the result does not depend on
the permutation at all (the right-hand side never reads the dataframe) —
while every nonzero index is translated through the permutation first. -/
theorem getRowAt_skips_translation_at_zero {α : Type} :
    (∀ (df : Dataframe) (lastMasks : DataframeMask) (col : List α),
        getRowAtColumnValue df lastMasks 0 ComponentType.edge col =
          (lastMasks.getIndexByType ComponentType.edge 0).bind col.get?) ∧
      (∀ (df : Dataframe) (lastMasks : DataframeMask) (col : List α) (i : ℕ), i ≠ 0 →
        getRowAtColumnValue df lastMasks i ComponentType.edge col =
          (df.forwardsEdgePermutationInverse.get? i).bind fun j =>
            (lastMasks.getIndexByType ComponentType.edge j).bind col.get?) := by
  constructor
  · intro df lastMasks col
    simp [getRowAtColumnValue, getRowAtIndex]
  · intro df lastMasks col i hi
    simp [getRowAtColumnValue, getRowAtIndex, hi, Option.bind_assoc]

/-- Witness for C9: with `edgePermutationInverseTyped = [1, 0]` and an
unfiltered mask over the column `[10, 20]`, reading sorted edge index 0
returns the value at unsorted index 0 (10, not the 20 a translation
through the permutation would give), while index 1 is translated to
unsorted index 0 and also reads 10. -/
theorem getRowAt_skips_translation_at_zero_witness :
    getRowAtColumnValue ⟨1, 2, [(0, 0), (0, 0)], [1, 0]⟩ ⟨none, none⟩ 0
        ComponentType.edge ([10, 20] : List ℚ) = some 10 ∧
      getRowAtColumnValue ⟨1, 2, [(0, 0), (0, 0)], [1, 0]⟩ ⟨none, none⟩ 1
        ComponentType.edge ([10, 20] : List ℚ) = some 10 :=
  ⟨((getRowAt_skips_translation_at_zero (α := ℚ)).1 ⟨1, 2, [(0, 0), (0, 0)], [1, 0]⟩
      ⟨none, none⟩ [10, 20]).trans (by decide),
    ((getRowAt_skips_translation_at_zero (α := ℚ)).2 ⟨1, 2, [(0, 0), (0, 0)], [1, 0]⟩
      ⟨none, none⟩ [10, 20] 1 (by decide)).trans (by decide)⟩

/-! ## C7: pruneMaskEdges keeps exactly the interior edges -/

/-- C7: `pruneMaskEdges` leaves the mask's points unchanged, and its edge
set consists of exactly those edge indices of the old mask (in sorted
forwards indexing) whose source and destination are both in the old
mask's point set; in particular, on the raw dataset of 4 points and sorted
edges `(0,1), (1,2), (2,3)`, masking to points `{0,1,2}` with unrestricted
edges keeps exactly edges 0 and 1 (dropping `(2,3)`). -/
theorem pruneMaskEdges_keeps_interior_edges :
    (∀ (df : Dataframe) (m : DataframeMask), (pruneMaskEdges df m).point = m.point) ∧
      (∀ (df : Dataframe) (m : DataframeMask) (i : ℕ),
        i ∈ (pruneMaskEdges df m).edge.getD [] ↔
          i ∈ m.edgeIndexes df ∧ ∃ e, df.forwardsEdgesTyped.get? i = some e ∧
            e.1 ∈ m.pointIndexes df ∧ e.2 ∈ m.pointIndexes df) ∧
      pruneMaskEdges ⟨4, 3, [(0, 1), (1, 2), (2, 3)], [0, 1, 2]⟩ ⟨some [0, 1, 2], none⟩ =
        ⟨some [0, 1, 2], some [0, 1]⟩ := by
  refine ⟨fun df m => rfl, fun df m i => ?_, by decide⟩
  simp only [pruneMaskEdges, Option.getD_some, List.mem_filter]
  cases h : df.forwardsEdgesTyped.get? i with
  | none => simp [h]
  | some e => simp [h, and_assoc]

/-! ## C3: the no-op fast paths of the in-place filter -/

/-- C3 (counterexample): filtering twice in a row with the same mask object
is NOT a no-op.  The first call updates the fields of the dataframe-owned
`lastMasks` object but never rebinds `this.lastMasks` to the caller's mask,
so the second call with the very same mask object (`refId = 1`, distinct
from the `lastMasks` identity 0) misses the reference-identity fast path,
recomputes, and increments the version counters again (tick 1 to 2). -/
theorem applyMask_second_call_not_noop :
    (applyDataframeMaskToFilterInPlace ⟨1, 1, [(0, 0)], [0]⟩
        ((applyDataframeMaskToFilterInPlace ⟨1, 1, [(0, 0)], [0]⟩ ⟨0, none, none, 0, 0, 0⟩
            ⟨1, some [0], some [0]⟩ true true).1)
        ⟨1, some [0], some [0]⟩ true true).2 = true ∧
      (applyDataframeMaskToFilterInPlace ⟨1, 1, [(0, 0)], [0]⟩
          ((applyDataframeMaskToFilterInPlace ⟨1, 1, [(0, 0)], [0]⟩ ⟨0, none, none, 0, 0, 0⟩
              ⟨1, some [0], some [0]⟩ true true).1)
          ⟨1, some [0], some [0]⟩ true true).1.tick = 2 := by
  decide

/-- C3 (amended): `applyDataframeMaskToFilterInPlace` returns the no-op
result `false`, with the state unchanged, exactly when (a) the mask is
reference-identical to the dataframe-owned `lastMasks` object or (b) a raw
forwards/backwards edge-weight buffer is missing; a full pass increments
tick, buffer versions and the data generation, and never transfers the
caller mask's identity into `lastMasks` (its `lastMasksId` is unchanged),
which is why a repeat call with the same caller mask recomputes. -/
theorem applyMask_noop_conditions (df : Dataframe) (st : FilterState) (masks : MaskRef)
    (fw bw : Bool) :
    ((applyDataframeMaskToFilterInPlace df st masks fw bw).2 = false ↔
        masks.refId = st.lastMasksId ∨ fw = false ∨ bw = false) ∧
      ((applyDataframeMaskToFilterInPlace df st masks fw bw).2 = false →
        (applyDataframeMaskToFilterInPlace df st masks fw bw).1 = st) ∧
      ((applyDataframeMaskToFilterInPlace df st masks fw bw).2 = true →
        (applyDataframeMaskToFilterInPlace df st masks fw bw).1.lastMasksId = st.lastMasksId ∧
          (applyDataframeMaskToFilterInPlace df st masks fw bw).1.tick = st.tick + 1 ∧
          (applyDataframeMaskToFilterInPlace df st masks fw bw).1.bufferVersions =
            st.bufferVersions + 1 ∧
          (applyDataframeMaskToFilterInPlace df st masks fw bw).1.dataGeneration =
            st.dataGeneration + 1) := by
  cases fw <;> cases bw <;> by_cases h1 : masks.refId = st.lastMasksId <;>
    simp [applyDataframeMaskToFilterInPlace, h1]

/-- Witness for C3 (amended): a call whose mask IS the dataframe-owned
`lastMasks` object (`refId` 5 on both sides) takes the no-op path and
leaves the state untouched. -/
theorem applyMask_noop_conditions_witness :
    (applyDataframeMaskToFilterInPlace ⟨0, 0, [], []⟩ ⟨5, none, none, 0, 0, 0⟩
        ⟨5, none, none⟩ true true).2 = false ∧
      (applyDataframeMaskToFilterInPlace ⟨0, 0, [], []⟩ ⟨5, none, none, 0, 0, 0⟩
          ⟨5, none, none⟩ true true).1 = ⟨5, none, none, 0, 0, 0⟩ := by
  have h := applyMask_noop_conditions ⟨0, 0, [], []⟩ ⟨5, none, none, 0, 0, 0⟩
    ⟨5, none, none⟩ true true
  have hno : (applyDataframeMaskToFilterInPlace ⟨0, 0, [], []⟩ ⟨5, none, none, 0, 0, 0⟩
      ⟨5, none, none⟩ true true).2 = false := h.1.mpr (Or.inl rfl)
  exact ⟨hno, h.2.1 hno⟩

/-! ## C8: composeMasks mutates its selection array past 255 masks -/

set_option maxRecDepth 8000 in
/-- C8 (counterexample): called with 256 selection masks, `composeMasks`
truncates the caller's `selectionMasks` array in place
(`selectionMasks.length = 255`), so the array is NOT unchanged by the
call. -/
theorem composeMasks_truncates_selection_array :
    (composeMasks ⟨0, 0, [], []⟩ (List.replicate 256 fullDataframeMask) [] none).selectionMasksAfter ≠
      List.replicate 256 fullDataframeMask := by
  have hsel : (composeMasks ⟨0, 0, [], []⟩ (List.replicate 256 fullDataframeMask) [] none).selectionMasksAfter =
      (List.replicate 256 fullDataframeMask).take 255 := rfl
  intro h
  rw [hsel] at h
  have hlen := congrArg List.length h
  simp only [List.length_take, List.length_replicate] at hlen
  omega

/-- C8 (amended): `composeMasks` leaves the exclusion masks, the mask
objects and a fully-keyed `limits` object unchanged, and leaves the
`selectionMasks` array unchanged when it has at most 255 entries — but
with more than 255 entries it truncates the caller's array in place to
its first 255 entries (and it writes `Infinity` into missing `limits`
keys). -/
theorem composeMasks_mutation_effects (df : Dataframe) (sel excl : List DataframeMask)
    (limits : Option Limits) :
    ((composeMasks df sel excl limits).selectionMasksAfter =
        if 255 < sel.length then sel.take 255 else sel) ∧
      (sel.length ≤ 255 → (composeMasks df sel excl limits).selectionMasksAfter = sel) ∧
      (∀ lp le, limits = some ⟨some lp, some le⟩ →
        (composeMasks df sel excl limits).limitsAfter = limits) := by
  refine ⟨rfl, fun hle => ?_, fun lp le hl => ?_⟩
  · have : ¬ 255 < sel.length := not_lt.mpr hle
    simp [composeMasks, this]
  · subst hl
    simp [composeMasks]

/-- Witness for C8 (amended) at an in-bounds call: one selection mask and a
fully-keyed `limits` object come back unchanged. -/
theorem composeMasks_mutation_effects_witness :
    (composeMasks ⟨0, 0, [], []⟩ [fullDataframeMask] [] (some ⟨some none, some none⟩)).selectionMasksAfter =
        [fullDataframeMask] ∧
      (composeMasks ⟨0, 0, [], []⟩ [fullDataframeMask] [] (some ⟨some none, some none⟩)).limitsAfter =
        some ⟨some none, some none⟩ :=
  ⟨(composeMasks_mutation_effects ⟨0, 0, [], []⟩ [fullDataframeMask] []
      (some ⟨some none, some none⟩)).2.1 (by decide),
    (composeMasks_mutation_effects ⟨0, 0, [], []⟩ [fullDataframeMask] []
      (some ⟨some none, some none⟩)).2.2 none none rfl⟩

/-! ## Helper lemmas for the composeMasks counters -/

/-- Reading a just-written typed-array slot. -/
theorem getD_set_self_of_lt {α : Type} (l : List α) (p : ℕ) (v d : α) (h : p < l.length) :
    (l.set p v).getD p d = v := by
  simp [List.getD_eq_getElem?_getD, List.getElem?_set_self h]

/-- Reading another slot after a typed-array write. -/
theorem getD_set_of_ne {α : Type} (l : List α) {p q : ℕ} (v d : α) (h : p ≠ q) :
    (l.set p v).getD q d = l.getD q d := by
  simp [List.getD_eq_getElem?_getD, List.getElem?_set_ne h]

/-- Incrementing counters preserves the counter-array length. -/
theorem length_foldl_bumpCounter8 (L : List ℕ) :
    ∀ arr : List ℕ, (L.foldl bumpCounter8 arr).length = arr.length := by
  induction L with
  | nil => intro arr; rfl
  | cons j rest ih => intro arr; rw [List.foldl_cons, ih]; simp [bumpCounter8]

/-- Zeroing counters preserves the counter-array length. -/
theorem length_foldl_zeroCounter (L : List ℕ) :
    ∀ arr : List ℕ, (L.foldl zeroCounter arr).length = arr.length := by
  induction L with
  | nil => intro arr; rfl
  | cons j rest ih => intro arr; rw [List.foldl_cons, ih]; simp [zeroCounter]

/-- Effect of one mask's increment pass on a single counter slot: a
duplicate-free index list bumps the slot (modulo the `Uint8Array` wrap)
exactly when it contains the in-bounds index. -/
theorem getD_foldl_bumpCounter8 (L : List ℕ) :
    ∀ (arr : List ℕ) (i : ℕ), L.Nodup →
      (L.foldl bumpCounter8 arr).getD i 0 =
        if i ∈ L ∧ i < arr.length then (arr.getD i 0 + 1) % 256 else arr.getD i 0 := by
  induction L with
  | nil => intro arr i _; simp
  | cons j rest ih =>
    intro arr i hnd
    have hj : j ∉ rest := (List.nodup_cons.mp hnd).1
    have hrest : rest.Nodup := (List.nodup_cons.mp hnd).2
    rw [List.foldl_cons, ih (bumpCounter8 arr j) i hrest]
    have hlen : (bumpCounter8 arr j).length = arr.length := by simp [bumpCounter8]
    by_cases hmem : i ∈ rest
    · have hne : j ≠ i := fun hrw => hj (hrw ▸ hmem)
      have hget : (bumpCounter8 arr j).getD i 0 = arr.getD i 0 := getD_set_of_ne arr _ 0 hne
      rw [hlen, hget]
      by_cases hlt : i < arr.length <;> simp [hmem, hlt]
    · by_cases hij : i = j
      · subst hij
        by_cases hlt : i < arr.length
        · have : (bumpCounter8 arr i).getD i 0 = (arr.getD i 0 + 1) % 256 :=
            getD_set_self_of_lt arr i _ 0 hlt
          rw [hlen, if_neg (fun hc => hmem hc.1), this]
          simp [hlt]
        · have : bumpCounter8 arr i = arr :=
            List.set_eq_of_length_le (le_of_not_lt hlt)
          rw [hlen, if_neg (fun hc => hmem hc.1), this]
          simp [hlt]
      · have hget : (bumpCounter8 arr j).getD i 0 = arr.getD i 0 :=
          getD_set_of_ne arr _ 0 (fun hrw => hij hrw.symm)
        rw [hlen, hget]
        have : i ∉ j :: rest := by
          intro hc; rcases List.mem_cons.mp hc with hc1 | hc2
          · exact hij hc1
          · exact hmem hc2
        simp [hmem, this]

/-- Effect of the whole selection-mask increment phase on an in-bounds
counter slot below 256: the slot holds its old value plus the number of
masks containing the index, modulo 256. -/
theorem getD_foldl_bump_masks {β : Type} (g : β → List ℕ) (ms : List β) :
    ∀ (arr : List ℕ) (i : ℕ), (∀ m ∈ ms, (g m).Nodup) → i < arr.length →
      arr.getD i 0 < 256 →
      (ms.foldl (fun sat m => (g m).foldl bumpCounter8 sat) arr).getD i 0 =
        (arr.getD i 0 + ms.countP fun m => decide (i ∈ g m)) % 256 := by
  induction ms with
  | nil =>
    intro arr i _ _ hlt
    simpa using (Nat.mod_eq_of_lt hlt).symm
  | cons m ms ih =>
    intro arr i hnd hi hlt
    rw [List.foldl_cons]
    have harr2len : ((g m).foldl bumpCounter8 arr).length = arr.length :=
      length_foldl_bumpCounter8 _ arr
    have harr2 := getD_foldl_bumpCounter8 (g m) arr i (hnd m (List.mem_cons_self m ms))
    have hmod : ((g m).foldl bumpCounter8 arr).getD i 0 < 256 := by
      rw [harr2]
      by_cases hc : i ∈ g m ∧ i < arr.length
      · simp only [hc, if_true]; exact Nat.mod_lt _ (by norm_num)
      · simp only [hc, if_false]; exact hlt
    rw [ih _ i (fun x hx => hnd x (List.mem_cons_of_mem m hx)) (harr2len ▸ hi) hmod, harr2]
    by_cases hmem : i ∈ g m
    · have hd : (decide (i ∈ g m)) = true := by simpa using hmem
      rw [if_pos ⟨hmem, hi⟩, List.countP_cons, hd, if_pos rfl, Nat.mod_add_mod]
      congr 1
      omega
    · have hd : (decide (i ∈ g m)) = false := by simpa using hmem
      rw [if_neg (fun hc => hmem hc.1), List.countP_cons, hd]
      simp

/-- Effect of one exclusion mask's pass on a single in-bounds counter slot:
it is zeroed exactly when the mask contains the index. -/
theorem getD_foldl_zeroCounter (L : List ℕ) :
    ∀ (arr : List ℕ) (i : ℕ), i < arr.length →
      (L.foldl zeroCounter arr).getD i 0 = if i ∈ L then 0 else arr.getD i 0 := by
  induction L with
  | nil => intro arr i _; simp
  | cons j rest ih =>
    intro arr i hi
    have hlen : (zeroCounter arr j).length = arr.length := by simp [zeroCounter]
    rw [List.foldl_cons, ih (zeroCounter arr j) i (hlen ▸ hi)]
    by_cases hmem : i ∈ rest
    · simp [hmem]
    · by_cases hij : i = j
      · subst hij
        have hz : (zeroCounter arr i).getD i 0 = 0 := getD_set_self_of_lt arr i _ 0 hi
        rw [if_neg hmem, if_pos (List.mem_cons_self i rest), hz]
      · have hz : (zeroCounter arr j).getD i 0 = arr.getD i 0 :=
          getD_set_of_ne arr _ 0 (fun hrw => hij hrw.symm)
        have hni : i ∉ j :: rest := by
          intro hc; rcases List.mem_cons.mp hc with hc1 | hc2
          · exact hij hc1
          · exact hmem hc2
        rw [if_neg hmem, if_neg hni, hz]

/-- Effect of the whole exclusion phase on an in-bounds counter slot: it is
zeroed exactly when some exclusion mask contains the index. -/
theorem getD_foldl_zero_masks {β : Type} (g : β → List ℕ) (ms : List β) :
    ∀ (arr : List ℕ) (i : ℕ), i < arr.length →
      (ms.foldl (fun sat m => (g m).foldl zeroCounter sat) arr).getD i 0 =
        if ∃ m ∈ ms, i ∈ g m then 0 else arr.getD i 0 := by
  induction ms with
  | nil => intro arr i _; simp
  | cons m ms ih =>
    intro arr i hi
    have hlen : ((g m).foldl zeroCounter arr).length = arr.length :=
      length_foldl_zeroCounter _ arr
    rw [List.foldl_cons, ih _ i (hlen ▸ hi), getD_foldl_zeroCounter (g m) arr i hi]
    by_cases hex : ∃ x ∈ ms, i ∈ g x
    · simp [hex]
    · by_cases hmem : i ∈ g m
      · have : ∃ x ∈ m :: ms, i ∈ g x := ⟨m, List.mem_cons_self m ms, hmem⟩
        simp [hex, hmem, this]
      · have : ¬ ∃ x ∈ m :: ms, i ∈ g x := by
          intro hc
          rcases hc with ⟨x, hx, hgx⟩
          rcases List.mem_cons.mp hx with h1 | h2
          · exact hmem (h1 ▸ hgx)
          · exact hex ⟨x, h2, hgx⟩
        simp [hex, hmem, this]

/-- With an infinite limit the collection loop is a plain filter of the
remaining slots, appended to the accumulator. -/
theorem collectGo_none (sat : List ℕ) (numMasks : ℕ) (l : List ℕ) :
    ∀ acc : List ℕ, collectGo sat numMasks none l acc =
      acc ++ l.filter fun i => decide (sat.getD i 0 = numMasks) := by
  induction l with
  | nil => intro acc; simp [collectGo]
  | cons i rest ih =>
    intro acc
    rw [collectGo, ih]
    have hl : limitReachedB none (if sat.getD i 0 = numMasks then acc ++ [i] else acc).length =
        false := rfl
    rw [hl, if_neg (by simp)]
    by_cases hc : sat.getD i 0 = numMasks
    · have hd : decide (sat.getD i 0 = numMasks) = true := by simpa using hc
      rw [if_pos hc, List.filter_cons, hd, if_pos rfl, List.append_assoc, List.singleton_append]
    · have hd : decide (sat.getD i 0 = numMasks) = false := by simpa using hc
      rw [if_neg hc, List.filter_cons, hd, if_neg (by simp)]

/-- The counter pipeline of `composeMasks` for one component type collects
exactly the indices below `n` that lie in every selection mask and in no
exclusion mask, in ascending order. -/
theorem collect_intersection_char {β : Type} (g : β → List ℕ) (n : ℕ)
    (selEff excl : List β)
    (hnod : ∀ m ∈ selEff, (g m).Nodup)
    (hlen : selEff.length ≤ 255)
    (hne : selEff ≠ []) :
    collectIndices
        (excl.foldl (fun sat m => (g m).foldl zeroCounter sat)
          (selEff.foldl (fun sat m => (g m).foldl bumpCounter8 sat) (List.replicate n 0)))
        selEff.length none =
      (List.range n).filter fun i =>
        decide (∀ m ∈ selEff, i ∈ g m) && decide (∀ m ∈ excl, i ∉ g m) := by
  set sat1 := selEff.foldl (fun sat m => (g m).foldl bumpCounter8 sat) (List.replicate n 0) with hsat1
  set sat2 := excl.foldl (fun sat m => (g m).foldl zeroCounter sat) sat1 with hsat2
  have hlen1 : sat1.length = n := by
    rw [hsat1]
    have : ∀ (ms : List β) (arr : List ℕ),
        (ms.foldl (fun sat m => (g m).foldl bumpCounter8 sat) arr).length = arr.length := by
      intro ms
      induction ms with
      | nil => intro arr; rfl
      | cons m ms ih => intro arr; rw [List.foldl_cons, ih, length_foldl_bumpCounter8]
    rw [this]; exact List.length_replicate n 0
  have hlen2 : sat2.length = n := by
    rw [hsat2]
    have : ∀ (ms : List β) (arr : List ℕ),
        (ms.foldl (fun sat m => (g m).foldl zeroCounter sat) arr).length = arr.length := by
      intro ms
      induction ms with
      | nil => intro arr; rfl
      | cons m ms ih => intro arr; rw [List.foldl_cons, ih, length_foldl_zeroCounter]
    rw [this]; exact hlen1
  rw [collectIndices, collectGo_none, List.nil_append, hlen2]
  apply List.filter_congr
  intro i hi
  have hin : i < n := List.mem_range.mp hi
  have hv1 : sat1.getD i 0 = (selEff.countP fun m => decide (i ∈ g m)) % 256 := by
    rw [hsat1, getD_foldl_bump_masks g selEff (List.replicate n 0) i hnod
      (by simpa using hin) (by simp)]
    simp
  have hv2 : sat2.getD i 0 =
      if ∃ m ∈ excl, i ∈ g m then 0 else sat1.getD i 0 := by
    rw [hsat2, getD_foldl_zero_masks g excl sat1 i (hlen1 ▸ hin)]
  have hcnt : (selEff.countP fun m => decide (i ∈ g m)) % 256 =
      selEff.countP fun m => decide (i ∈ g m) := by
    apply Nat.mod_eq_of_lt
    calc selEff.countP (fun m => decide (i ∈ g m)) ≤ selEff.length := List.countP_le_length _
      _ ≤ 255 := hlen
      _ < 256 := by norm_num
  rw [hv2, hv1, hcnt]
  by_cases hex : ∃ m ∈ excl, i ∈ g m
  · have hne2 : selEff.length ≠ 0 := fun hc => hne (List.length_eq_zero.mp hc)
    have hnotall : ¬ ∀ m ∈ excl, i ∉ g m := by
      intro hall
      rcases hex with ⟨m, hm, hgm⟩
      exact hall m hm hgm
    simp [hex, (Ne.symm hne2), hnotall]
  · have hall : ∀ m ∈ excl, i ∉ g m := by
      intro m hm hgm
      exact hex ⟨m, hm, hgm⟩
    have hiff : (selEff.countP fun m => decide (i ∈ g m)) = selEff.length ↔
        ∀ m ∈ selEff, i ∈ g m := by
      rw [List.countP_eq_length]
      constructor
      · intro h1 m hm; simpa using h1 m hm
      · intro h1 m hm; simpa using h1 m hm
    by_cases hselall : ∀ m ∈ selEff, i ∈ g m
    · simp [hex, hall, hiff.mpr hselall, hselall]
      exact ⟨hselall, hall⟩
    · have hne2 : (selEff.countP fun m => decide (i ∈ g m)) ≠ selEff.length :=
        fun hc => hselall (hiff.mp hc)
      simp [hex, hall, hne2, hselall]

/-! ## C2: composeMasks computes the selection intersection minus exclusions -/

/-- C2: with at most 255 selection masks (each listing its indices without
duplicates) and no finite per-type limits, `composeMasks` returns, for each
component type, exactly the global indices present in EVERY selection mask
and in NO exclusion mask, ascending; an empty `selectionMasks` array
behaves as a single universal selection mask. -/
theorem composeMasks_selects_intersection (df : Dataframe)
    (sel excl : List DataframeMask) (limits : Option Limits)
    (h255 : sel.length ≤ 255)
    (hwf : ∀ m ∈ sel, (m.pointIndexes df).Nodup ∧ (m.edgeIndexes df).Nodup)
    (hlp : effectivePointLimit limits = none)
    (hle : effectiveEdgeLimit limits = none) :
    (composeMasks df sel excl limits).mask.point =
        some ((List.range df.numPoints).filter fun i =>
          decide (∀ m ∈ (if sel = [] then [fullDataframeMask] else sel), i ∈ m.pointIndexes df) &&
            decide (∀ m ∈ excl, i ∉ m.pointIndexes df)) ∧
      (composeMasks df sel excl limits).mask.edge =
        some ((List.range df.numEdges).filter fun i =>
          decide (∀ m ∈ (if sel = [] then [fullDataframeMask] else sel), i ∈ m.edgeIndexes df) &&
            decide (∀ m ∈ excl, i ∉ m.edgeIndexes df)) := by
  have hrep : (if sel.isEmpty then [fullDataframeMask] else sel) =
      (if sel = [] then [fullDataframeMask] else sel) := by
    cases sel with
    | nil => rfl
    | cons a l => simp
  have hne : (if sel = [] then [fullDataframeMask] else sel) ≠ [] := by
    cases sel with
    | nil => simp
    | cons a l => simp
  have hlen : (if sel = [] then [fullDataframeMask] else sel).length ≤ 255 := by
    cases sel with
    | nil => simp
    | cons a l => simpa using h255
  have htrunc :
      (if 255 < (if sel = [] then [fullDataframeMask] else sel).length then
          (if sel = [] then [fullDataframeMask] else sel).take 255
        else if sel = [] then [fullDataframeMask] else sel) =
        (if sel = [] then [fullDataframeMask] else sel) := if_neg (not_lt.mpr hlen)
  have hnodP : ∀ m ∈ (if sel = [] then [fullDataframeMask] else sel),
      (m.pointIndexes df).Nodup := by
    cases sel with
    | nil =>
      intro m hm
      simp at hm
      subst hm
      exact List.nodup_range _
    | cons a l =>
      intro m hm
      rw [if_neg (List.cons_ne_nil a l)] at hm
      exact (hwf m hm).1
  have hnodE : ∀ m ∈ (if sel = [] then [fullDataframeMask] else sel),
      (m.edgeIndexes df).Nodup := by
    cases sel with
    | nil =>
      intro m hm
      simp at hm
      subst hm
      exact List.nodup_range _
    | cons a l =>
      intro m hm
      rw [if_neg (List.cons_ne_nil a l)] at hm
      exact (hwf m hm).2
  rcases limits with _ | l
  · simp only [composeMasks, Option.getD_some, hrep, htrunc]
    exact ⟨congrArg some (collect_intersection_char (fun m => m.pointIndexes df) df.numPoints
        _ excl hnodP hlen hne),
      congrArg some (collect_intersection_char (fun m => m.edgeIndexes df) df.numEdges
        _ excl hnodE hlen hne)⟩
  · simp only [effectivePointLimit] at hlp
    simp only [effectiveEdgeLimit] at hle
    simp only [composeMasks, Option.getD_some, hrep, htrunc, hlp, hle]
    exact ⟨congrArg some (collect_intersection_char (fun m => m.pointIndexes df) df.numPoints
        _ excl hnodP hlen hne),
      congrArg some (collect_intersection_char (fun m => m.edgeIndexes df) df.numEdges
        _ excl hnodE hlen hne)⟩

/-- Witness for C2: over 4 points, `composeMasks([A, B], [], {})` with
A = points {0,1,2} and B = points {1,2,3} yields exactly the points
{1, 2}; and `composeMasks([], [], {})` yields the full mask for both
component types. -/
theorem composeMasks_selects_intersection_witness :
    (composeMasks ⟨4, 0, [], []⟩ [⟨some [0, 1, 2], none⟩, ⟨some [1, 2, 3], none⟩] []
        (some ⟨none, none⟩)).mask.point = some [1, 2] ∧
      (composeMasks ⟨2, 2, [], []⟩ [] [] (some ⟨none, none⟩)).mask.point = some [0, 1] ∧
      (composeMasks ⟨2, 2, [], []⟩ [] [] (some ⟨none, none⟩)).mask.edge = some [0, 1] := by
  refine ⟨?_, ?_, ?_⟩
  · exact ((composeMasks_selects_intersection ⟨4, 0, [], []⟩
      [⟨some [0, 1, 2], none⟩, ⟨some [1, 2, 3], none⟩] [] (some ⟨none, none⟩)
      (by decide) (by decide) rfl rfl).1).trans (by decide)
  · exact ((composeMasks_selects_intersection ⟨2, 2, [], []⟩ [] [] (some ⟨none, none⟩)
      (by decide) (by decide) rfl rfl).1).trans (by decide)
  · exact ((composeMasks_selects_intersection ⟨2, 2, [], []⟩ [] [] (some ⟨none, none⟩)
      (by decide) (by decide) rfl rfl).2).trans (by decide)

/-! ## Helper lemmas for encapsulateEdges -/

/-- An in-bounds typed-array slot read back through `getElem?`. -/
theorem getElem?_eq_some_getD {α : Type} (l : List α) (i : ℕ) (d : α) (h : i < l.length) :
    l[i]? = some (l.getD i d) := by
  rw [List.getD_eq_getElem?_getD, List.getElem?_eq_getElem h]
  rfl

/-- A scatter pass leaves slots it never writes unchanged. -/
theorem applyWrites_getD_not_mem (ws : List (ℕ × ℕ)) :
    ∀ (arr : List ℕ) (p : ℕ), (∀ w ∈ ws, w.1 ≠ p) →
      (applyWrites arr ws).getD p 0 = arr.getD p 0 := by
  induction ws with
  | nil => intro arr p _; rfl
  | cons w rest ih =>
    intro arr p hne
    rw [applyWrites, List.foldl_cons, ← applyWrites,
      ih (arr.set w.1 w.2) p (fun x hx => hne x (List.mem_cons_of_mem w hx)),
      getD_set_of_ne arr _ 0 (hne w (List.mem_cons_self w rest))]

/-- A scatter pass preserves the array length. -/
theorem applyWrites_length (ws : List (ℕ × ℕ)) :
    ∀ arr : List ℕ, (applyWrites arr ws).length = arr.length := by
  induction ws with
  | nil => intro arr; rfl
  | cons w rest ih =>
    intro arr
    rw [applyWrites, List.foldl_cons, ← applyWrites, ih, List.length_set]

/-- A scatter pass over pairwise-distinct positions stores each value at
its position. -/
theorem applyWrites_getD_mem (ws : List (ℕ × ℕ)) :
    ∀ (arr : List ℕ) (p v : ℕ), (ws.map Prod.fst).Nodup → (p, v) ∈ ws → p < arr.length →
      (applyWrites arr ws).getD p 0 = v := by
  induction ws with
  | nil => intro arr p v _ hmem _; exact absurd hmem (List.not_mem_nil (p, v))
  | cons w rest ih =>
    intro arr p v hnod hmem hp
    have hnodrest : (rest.map Prod.fst).Nodup := (List.nodup_cons.mp hnod).2
    rcases List.mem_cons.mp hmem with h1 | h2
    · subst h1
      rw [applyWrites, List.foldl_cons, ← applyWrites]
      have hnotin : ∀ x ∈ rest, x.1 ≠ p := by
        intro x hx hc
        have hpm : p ∈ rest.map Prod.fst := by
          rw [← hc]
          exact List.mem_map_of_mem Prod.fst hx
        exact (List.nodup_cons.mp hnod).1 hpm
      rw [applyWrites_getD_not_mem rest _ p hnotin]
      exact getD_set_self_of_lt arr p v 0 hp
    · rw [applyWrites, List.foldl_cons, ← applyWrites]
      exact ih (arr.set w.1 w.2) p v hnodrest h2 (by simpa using hp)

/-- An in-bounds default read is a member of the list. -/
theorem getD_mem_of_lt {α : Type} (l : List α) (i : ℕ) (d : α) (h : i < l.length) :
    l.getD i d ∈ l := by
  rw [List.getD_eq_getElem?_getD, List.getElem?_eq_getElem h]
  exact List.getElem_mem h

/-- The sort permutation of `computeEdgeList` is a permutation of the
identity index range. -/
theorem computeEdgeListMapped_perm (edges : List (ℕ × ℕ)) :
    (computeEdgeListMapped edges).Perm (List.range edges.length) :=
  List.perm_insertionSort (edgeSortLE edges) (List.range edges.length)

/-- The sort permutation has no duplicates. -/
theorem computeEdgeListMapped_nodup (edges : List (ℕ × ℕ)) :
    (computeEdgeListMapped edges).Nodup :=
  ((computeEdgeListMapped_perm edges).symm.nodup (List.nodup_range _))

/-- Every entry of the sort permutation is a valid unsorted index. -/
theorem computeEdgeListMapped_mem_lt (edges : List (ℕ × ℕ)) {v : ℕ}
    (hv : v ∈ computeEdgeListMapped edges) : v < edges.length :=
  List.mem_range.mp ((computeEdgeListMapped_perm edges).mem_iff.mp hv)

/-- The sort permutation has one entry per edge. -/
theorem computeEdgeListMapped_length (edges : List (ℕ × ℕ)) :
    (computeEdgeListMapped edges).length = edges.length := by
  rw [(computeEdgeListMapped_perm edges).length_eq, List.length_range]

/-- C1, first half, as a standalone lemma: the permutation built by
`_.each(inverse, (val, i) => perm[val] = i)` inverts
`edgePermutationInverseTyped` from the left at every sorted index. -/
theorem encapsulateEdges_perm_inverse (edges : List (ℕ × ℕ)) (numPoints : ℕ) (i : ℕ)
    (hi : i < edges.length) :
    (encapsulateEdges edges numPoints).edgePermutation.getD
      ((encapsulateEdges edges numPoints).edgePermutationInverseTyped.getD i 0) 0 = i := by
  have hinvEq : (encapsulateEdges edges numPoints).edgePermutationInverseTyped =
      computeEdgeListMapped edges := rfl
  have hpermEq : (encapsulateEdges edges numPoints).edgePermutation =
      applyWrites (List.replicate edges.length 0)
        ((computeEdgeListMapped edges).enum.map fun p => (p.2, p.1)) := rfl
  rw [hinvEq, hpermEq]
  set inv := computeEdgeListMapped edges with hinv
  have hleninv : inv.length = edges.length := computeEdgeListMapped_length edges
  have hilt : i < inv.length := hleninv ▸ hi
  have henum : (i, inv.getD i 0) ∈ inv.enum := by
    rw [List.mem_enum_iff_getElem?]
    exact getElem?_eq_some_getD inv i 0 hilt
  have hmem : (inv.getD i 0, i) ∈ inv.enum.map fun p => (p.2, p.1) :=
    List.mem_map_of_mem (fun p => (p.2, p.1)) henum
  have hfst : (inv.enum.map fun p => (p.2, p.1)).map Prod.fst = inv := by
    rw [List.map_map]
    exact List.enum_map_snd inv
  have hnodfst : ((inv.enum.map fun p => (p.2, p.1)).map Prod.fst).Nodup := by
    rw [hfst]
    exact computeEdgeListMapped_nodup edges
  have hvlt : inv.getD i 0 < (List.replicate edges.length (0 : ℕ)).length := by
    rw [List.length_replicate]
    exact computeEdgeListMapped_mem_lt edges (getD_mem_of_lt inv i 0 hilt)
  exact applyWrites_getD_mem _ _ _ _ hnodfst hmem hvlt

/-- The work-item scan emits one item per point id, in order. -/
theorem computeWorkItemsGo_src_map :
    ∀ (todo i pos : ℕ) (rest : List (ℕ × ℕ)),
      (computeWorkItemsGo todo i pos rest).map (·.src) = List.range' i todo := by
  intro todo
  induction todo with
  | zero => intro i pos rest; rfl
  | succ n ih =>
    intro i pos rest
    cases rest with
    | nil => simp [computeWorkItemsGo, ih, List.range']
    | cons a t =>
      by_cases ha : a.1 = i <;>
        simp [computeWorkItemsGo, ha, ih, List.range']

/-- After dropping the source-`i` run from a sorted suffix whose sources
are all at least `i`, every remaining source is at least `i + 1`. -/
theorem dropWhile_src_ge_succ (i : ℕ) :
    ∀ rest : List (ℕ × ℕ), (∀ e ∈ rest, i ≤ e.1) →
      rest.Pairwise (fun a b => a.1 ≤ b.1) →
      ∀ e ∈ rest.dropWhile (fun e2 => decide (e2.1 = i)), i + 1 ≤ e.1 := by
  intro rest
  induction rest with
  | nil => intro _ _ e he; simp at he
  | cons a t ih =>
    intro hge hpw e he
    rw [List.dropWhile_cons] at he
    by_cases ha : a.1 = i
    · rw [if_pos (by simpa using ha)] at he
      exact ih (fun x hx => hge x (List.mem_cons_of_mem a hx)) hpw.of_cons e he
    · rw [if_neg (by simpa using ha)] at he
      have hai : i + 1 ≤ a.1 :=
        Nat.succ_le_of_lt (lt_of_le_of_ne (hge a (List.mem_cons_self a t)) (Ne.symm ha))
      rcases List.mem_cons.mp he with h1 | h2
      · exact h1 ▸ hai
      · exact le_trans hai ((List.pairwise_cons.mp hpw).1 e h2)

/-- The scan consumes every edge of a sorted suffix whose sources lie in
the scanned point-id window: the work-item counts sum to the suffix
length. -/
theorem computeWorkItemsGo_count_sum :
    ∀ (todo i pos : ℕ) (rest : List (ℕ × ℕ)),
      (∀ e ∈ rest, i ≤ e.1 ∧ e.1 < i + todo) →
      rest.Pairwise (fun a b => a.1 ≤ b.1) →
      ((computeWorkItemsGo todo i pos rest).map (·.count)).sum = rest.length := by
  intro todo
  induction todo with
  | zero =>
    intro i pos rest hb _
    have : rest = [] := by
      apply List.eq_nil_iff_forall_not_mem.mpr
      intro e he
      have := hb e he
      omega
    subst this
    rfl
  | succ n ih =>
    intro i pos rest hb hpw
    cases rest with
    | nil =>
      simp only [computeWorkItemsGo, List.head?_nil, List.map_cons, List.sum_cons]
      rw [ih (i + 1) pos [] (by simp) List.Pairwise.nil]
      rfl
    | cons a t =>
      by_cases ha : a.1 = i
      · have hgo : computeWorkItemsGo (n + 1) i pos (a :: t) =
            ⟨(pos : ℤ), ((a :: t).takeWhile fun e2 => decide (e2.1 = i)).length, i⟩ ::
              computeWorkItemsGo n (i + 1)
                (pos + ((a :: t).takeWhile fun e2 => decide (e2.1 = i)).length)
                ((a :: t).dropWhile fun e2 => decide (e2.1 = i)) := by
          simp [computeWorkItemsGo, ha]
        rw [hgo, List.map_cons, List.sum_cons]
        have hsub : ((a :: t).dropWhile fun e2 => decide (e2.1 = i)).Sublist (a :: t) :=
          (List.dropWhile_suffix _).sublist
        have hbnd : ∀ e ∈ (a :: t).dropWhile fun e2 => decide (e2.1 = i),
            i + 1 ≤ e.1 ∧ e.1 < i + 1 + n := by
          intro e he
          refine ⟨dropWhile_src_ge_succ i (a :: t) (fun x hx => (hb x hx).1) hpw e he, ?_⟩
          have := (hb e (hsub.subset he)).2
          omega
        rw [ih (i + 1) _ _ hbnd (List.Pairwise.sublist hsub hpw)]
        have hlen : (((a :: t).takeWhile fun e2 => decide (e2.1 = i)).length) +
            (((a :: t).dropWhile fun e2 => decide (e2.1 = i)).length) = (a :: t).length := by
          rw [← List.length_append, List.takeWhile_append_dropWhile]
        have hc : (⟨(pos : ℤ), ((a :: t).takeWhile fun e2 => decide (e2.1 = i)).length, i⟩ :
            WorkItem).count = ((a :: t).takeWhile fun e2 => decide (e2.1 = i)).length := rfl
        rw [hc]
        omega
      · have hgo : computeWorkItemsGo (n + 1) i pos (a :: t) =
            ⟨-1, 0, i⟩ :: computeWorkItemsGo n (i + 1) pos (a :: t) := by
          simp [computeWorkItemsGo, ha]
        rw [hgo, List.map_cons, List.sum_cons]
        have hai : i + 1 ≤ a.1 :=
          Nat.succ_le_of_lt
            (lt_of_le_of_ne ((hb a (List.mem_cons_self a t)).1) (Ne.symm ha))
        have hbnd : ∀ e ∈ a :: t, i + 1 ≤ e.1 ∧ e.1 < i + 1 + n := by
          intro e he
          constructor
          · rcases List.mem_cons.mp he with h1 | h2
            · exact h1 ▸ hai
            · exact le_trans hai ((List.pairwise_cons.mp hpw).1 e h2)
          · have := (hb e he).2
            omega
        rw [ih (i + 1) pos (a :: t) hbnd hpw]
        simp

/-- Writing over a zero slot adds the written value to the array sum. -/
theorem sum_set_of_getD_zero :
    ∀ (l : List ℕ) (p v : ℕ), p < l.length → l.getD p 0 = 0 → (l.set p v).sum = l.sum + v := by
  intro l
  induction l with
  | nil => intro p v hp _; simp at hp
  | cons a t ih =>
    intro p v hp hz
    cases p with
    | zero =>
      simp only [List.getD_eq_getElem?_getD, List.getElem?_cons_zero, Option.getD_some] at hz
      simp [List.set, hz]
      omega
    | succ p =>
      have hp2 : p < t.length := by simpa using hp
      have hz2 : t.getD p 0 = 0 := by
        simpa [List.getD_eq_getElem?_getD] using hz
      simp only [List.set, List.sum_cons, ih p v hp2 hz2]
      omega

/-- A scatter pass over pairwise-distinct zero slots adds exactly the
written values to the array sum. -/
theorem applyWrites_sum (ws : List (ℕ × ℕ)) :
    ∀ arr : List ℕ, (ws.map Prod.fst).Nodup →
      (∀ w ∈ ws, w.1 < arr.length ∧ arr.getD w.1 0 = 0) →
      (applyWrites arr ws).sum = arr.sum + (ws.map Prod.snd).sum := by
  induction ws with
  | nil => intro arr _ _; simp [applyWrites]
  | cons w rest ih =>
    intro arr hnod hok
    have hhead := hok w (List.mem_cons_self w rest)
    have hnotin : ∀ x ∈ rest, x.1 ≠ w.1 := by
      intro x hx hc
      have hpm : w.1 ∈ rest.map Prod.fst := by
        rw [← hc]
        exact List.mem_map_of_mem Prod.fst hx
      exact (List.nodup_cons.mp hnod).1 hpm
    rw [applyWrites, List.foldl_cons, ← applyWrites]
    rw [ih (arr.set w.1 w.2) (List.nodup_cons.mp hnod).2 ?_]
    · rw [sum_set_of_getD_zero arr w.1 w.2 hhead.1 hhead.2, List.map_cons, List.sum_cons]
      omega
    · intro x hx
      refine ⟨by simpa using (hok x (List.mem_cons_of_mem w hx)).1, ?_⟩
      rw [getD_set_of_ne arr _ 0 (fun hc => hnotin x hx hc.symm)]
      exact (hok x (List.mem_cons_of_mem w hx)).2

/-- Every sorted edge is one of the unsorted edges. -/
theorem computeEdgeListTyped_mem (edges : List (ℕ × ℕ)) {e : ℕ × ℕ}
    (he : e ∈ computeEdgeListTyped edges) : e ∈ edges := by
  rw [computeEdgeListTyped, List.mem_map] at he
  rcases he with ⟨j, hj, hje⟩
  rw [← hje]
  exact getD_mem_of_lt edges j (0, 0) (computeEdgeListMapped_mem_lt edges hj)

/-- The sorted edge list is non-decreasing in the source component. -/
theorem computeEdgeListTyped_sorted (edges : List (ℕ × ℕ)) :
    (computeEdgeListTyped edges).Pairwise fun a b => a.1 ≤ b.1 := by
  have hs : List.Sorted (edgeSortLE edges) (computeEdgeListMapped edges) :=
    List.sorted_insertionSort (edgeSortLE edges) (List.range edges.length)
  rw [computeEdgeListTyped, List.pairwise_map]
  refine hs.imp ?_
  intro a b hab
  rcases (Prod.Lex.le_iff (edges.getD a (0, 0)) (edges.getD b (0, 0))).mp hab with h1 | h2
  · exact le_of_lt h1
  · exact le_of_eq h2.1

/-- The sort preserves the edge count. -/
theorem computeEdgeListTyped_length (edges : List (ℕ × ℕ)) :
    (computeEdgeListTyped edges).length = edges.length := by
  rw [computeEdgeListTyped, List.length_map, computeEdgeListMapped_length]

/-- A zero-initialised counter array reads zero everywhere. -/
theorem getD_replicate_zero (n p : ℕ) : (List.replicate n (0 : ℕ)).getD p 0 = 0 := by
  rw [List.getD_eq_getElem?_getD, List.getElem?_replicate]
  split <;> rfl

/-! ## C1: encapsulateEdges permutation inverse and degree sum -/

/-- C1: for every edge list whose endpoints are valid point indices below
`numPoints`, the encapsulation satisfies
`edgePermutation[edgePermutationInverse[i]] = i` for every sorted edge
index `i`, and the degrees summed over all points equal the number of
edges. -/
theorem encapsulateEdges_inverse_and_degrees (edges : List (ℕ × ℕ)) (numPoints : ℕ)
    (hsrc : ∀ e ∈ edges, e.1 < numPoints) (hdst : ∀ e ∈ edges, e.2 < numPoints) :
    (∀ i < edges.length,
        (encapsulateEdges edges numPoints).edgePermutation.getD
          ((encapsulateEdges edges numPoints).edgePermutationInverseTyped.getD i 0) 0 = i) ∧
      (encapsulateEdges edges numPoints).degreesTyped.sum = edges.length := by
  refine ⟨fun i hi => encapsulateEdges_perm_inverse edges numPoints i hi, ?_⟩
  have hdeg : (encapsulateEdges edges numPoints).degreesTyped =
      applyWrites (List.replicate numPoints 0)
        ((computeWorkItemsTyped (computeEdgeListTyped edges) numPoints).map
          fun wi => (wi.src, wi.count)) := rfl
  rw [hdeg]
  set wis := computeWorkItemsTyped (computeEdgeListTyped edges) numPoints with hwis
  have hsrcs : (wis.map fun wi => (wi.src, wi.count)).map Prod.fst =
      List.range' 0 numPoints := by
    rw [List.map_map]
    exact computeWorkItemsGo_src_map numPoints 0 0 (computeEdgeListTyped edges)
  have hcnts : (wis.map fun wi => (wi.src, wi.count)).map Prod.snd =
      wis.map fun wi => wi.count := by
    rw [List.map_map]
    rfl
  rw [applyWrites_sum _ _ ?_ ?_]
  · rw [hcnts]
    have hbnd : ∀ e ∈ computeEdgeListTyped edges, 0 ≤ e.1 ∧ e.1 < 0 + numPoints := by
      intro e he
      exact ⟨Nat.zero_le _, by simpa using hsrc e (computeEdgeListTyped_mem edges he)⟩
    have hsum := computeWorkItemsGo_count_sum numPoints 0 0 (computeEdgeListTyped edges)
      hbnd (computeEdgeListTyped_sorted edges)
    rw [hwis, computeWorkItemsTyped, hsum, computeEdgeListTyped_length]
    simp
  · rw [hsrcs]
    exact List.nodup_range' 0 numPoints
  · intro w hw
    have hwfst : w.1 ∈ List.range' 0 numPoints := by
      rw [← hsrcs]
      exact List.mem_map_of_mem Prod.fst hw
    refine ⟨?_, getD_replicate_zero numPoints w.1⟩
    rw [List.length_replicate]
    have := List.mem_range'_1.mp hwfst
    omega

/-- Witness for C1: the unsorted edges `[(1,0), (0,2)]` over 3 points sort
to `[(0,2), (1,0)]`; both permutation round trips hold and the degrees
(1 per source 0 and 1) sum to the edge count 2. -/
theorem encapsulateEdges_inverse_and_degrees_witness :
    (∀ e ∈ [(1, 0), (0, 2)], e.1 < 3) ∧ (∀ e ∈ [(1, 0), (0, 2)], e.2 < 3) ∧
      ((∀ i < ([(1, 0), (0, 2)] : List (ℕ × ℕ)).length,
          (encapsulateEdges [(1, 0), (0, 2)] 3).edgePermutation.getD
            ((encapsulateEdges [(1, 0), (0, 2)] 3).edgePermutationInverseTyped.getD i 0) 0 = i) ∧
        (encapsulateEdges [(1, 0), (0, 2)] 3).degreesTyped.sum =
          ([(1, 0), (0, 2)] : List (ℕ × ℕ)).length) :=
  ⟨by decide, by decide,
    encapsulateEdges_inverse_and_degrees [(1, 0), (0, 2)] 3 (by decide) (by decide)⟩

/-! ## Helper lemmas for histogram binning -/

/-- The first width loop only ever scales its positive width by positive
factors. -/
theorem approxWidthLoop_pos (range : ℚ) :
    ∀ (fuel : ℕ) (w w2 : ℚ), 0 < w → approxWidthLoop range w fuel = some w2 → 0 < w2 := by
  intro fuel
  induction fuel with
  | zero => intro w w2 _ hc; simp [approxWidthLoop] at hc
  | succ n ih =>
    intro w w2 hw hc
    rw [approxWidthLoop] at hc
    split at hc
    · exact ih _ w2 (by positivity) hc
    · split at hc
      · exact ih _ w2 (by positivity) hc
      · cases hc
        exact hw

/-- The refinement loop only ever scales its positive width by positive
factors. -/
theorem refineWidthLoop_pos (range : ℚ) (minBins goalBins : ℕ) :
    ∀ (fuel : ℕ) (w w2 : ℚ), 0 < w → refineWidthLoop range minBins goalBins w fuel = some w2 →
      0 < w2 := by
  intro fuel
  induction fuel with
  | zero => intro w w2 _ hc; simp [refineWidthLoop] at hc
  | succ n ih =>
    intro w w2 hw hc
    rw [refineWidthLoop] at hc
    split at hc
    · exact ih _ w2 (by positivity) hc
    · split at hc
      · exact ih _ w2 (by positivity) hc
      · cases hc
        exact hw

/-- Bin-id bound for the evenly divided paths of `calculateBinning`
(integral-distinct and explicit-goal): with `k > 1` bins of width
`range / (k - 1)`, every value between the unsnapped min and max truncates
into `[0, k)`. -/
theorem binId_bounds_linear (mn mx : ℚ) (k : ℕ) (v : ℚ) (hk : 1 < k) (hmn : mn < mx)
    (h1 : mn ≤ v) (h2 : v ≤ mx) :
    0 ≤ jsTrunc ((v - mn) / ((mx - mn) / ((k : ℚ) - 1))) ∧
      jsTrunc ((v - mn) / ((mx - mn) / ((k : ℚ) - 1))) < (k : ℤ) := by
  have hk1 : (0 : ℚ) < (k : ℚ) - 1 := by
    have : (1 : ℚ) < (k : ℚ) := by exact_mod_cast hk
    linarith
  have hr : (0 : ℚ) < mx - mn := sub_pos.mpr hmn
  have hw : (0 : ℚ) < (mx - mn) / ((k : ℚ) - 1) := div_pos hr hk1
  have hq0 : 0 ≤ (v - mn) / ((mx - mn) / ((k : ℚ) - 1)) :=
    div_nonneg (sub_nonneg.mpr h1) (le_of_lt hw)
  have htr : jsTrunc ((v - mn) / ((mx - mn) / ((k : ℚ) - 1))) =
      ⌊(v - mn) / ((mx - mn) / ((k : ℚ) - 1))⌋ := by
    rw [jsTrunc, if_pos hq0]
  have hfull : (mx - mn) / ((mx - mn) / ((k : ℚ) - 1)) = (k : ℚ) - 1 := by
    rw [div_div_eq_mul_div, mul_comm, mul_div_assoc, div_self (ne_of_gt hr), mul_one]
  have hmono : (v - mn) / ((mx - mn) / ((k : ℚ) - 1)) ≤
      (mx - mn) / ((mx - mn) / ((k : ℚ) - 1)) :=
    (div_le_div_right hw).mpr (sub_le_sub_right h2 mn)
  have hcast : (k : ℚ) - 1 = (((k : ℤ) - 1 : ℤ) : ℚ) := by push_cast; ring
  have hup : ⌊(v - mn) / ((mx - mn) / ((k : ℚ) - 1))⌋ ≤ (k : ℤ) - 1 := by
    have h3 := Int.floor_mono (le_trans hmono (le_of_eq hfull))
    have h4 : ⌊(k : ℚ) - 1⌋ = (k : ℤ) - 1 := by
      rw [hcast, Int.floor_intCast]
    rw [h4] at h3
    exact h3
  refine ⟨htr ▸ Int.floor_nonneg.mpr hq0, ?_⟩
  rw [htr]
  omega

/-- Bin-id bound for the width-snapping path of `calculateBinning`: with
min/max snapped outward to multiples of the positive width `w` and
`numBins = floor((top - bottom) / w) + 1`, every value between the snapped
bounds truncates into `[0, numBins)`. -/
theorem binId_bounds_snapped (mn mx w v : ℚ) (hw : 0 < w) (h1 : round_down mn w ≤ v)
    (h2 : v ≤ round_up mx w) :
    0 ≤ jsTrunc ((v - round_down mn w) / w) ∧
      jsTrunc ((v - round_down mn w) / w) <
        (((⌊(round_up mx w - round_down mn w) / w⌋.toNat + 1 : ℕ) : ℤ)) := by
  have hw0 : w ≠ 0 := ne_of_gt hw
  have hspan : round_up mx w - round_down mn w = w * ((⌈mx / w⌉ - ⌊mn / w⌋ : ℤ) : ℚ) := by
    rw [round_up, round_down, if_neg hw0, if_neg hw0]
    push_cast
    ring
  have hq : (round_up mx w - round_down mn w) / w = ((⌈mx / w⌉ - ⌊mn / w⌋ : ℤ) : ℚ) := by
    rw [hspan, mul_div_cancel_left₀ _ hw0]
  have hq0 : 0 ≤ (v - round_down mn w) / w :=
    div_nonneg (sub_nonneg.mpr h1) (le_of_lt hw)
  have htr : jsTrunc ((v - round_down mn w) / w) = ⌊(v - round_down mn w) / w⌋ := by
    rw [jsTrunc, if_pos hq0]
  have hmono : (v - round_down mn w) / w ≤ (round_up mx w - round_down mn w) / w :=
    (div_le_div_right hw).mpr (sub_le_sub_right h2 _)
  have hup : ⌊(v - round_down mn w) / w⌋ ≤ ⌈mx / w⌉ - ⌊mn / w⌋ := by
    have := Int.floor_mono (le_trans hmono (le_of_eq hq))
    rw [Int.floor_intCast] at this
    exact this
  have hfl : ⌊(round_up mx w - round_down mn w) / w⌋ = ⌈mx / w⌉ - ⌊mn / w⌋ := by
    rw [hq, Int.floor_intCast]
  refine ⟨htr ▸ Int.floor_nonneg.mpr hq0, ?_⟩
  rw [htr, hfl]
  have := Int.self_le_toNat (⌈mx / w⌉ - ⌊mn / w⌋)
  omega

/-! ## C10: histogram bin ids stay inside the bins array -/

/-- C10 (amended): in `histogram` with more than one bin (after the
`max === min` guard), for every defined value LYING BETWEEN the binning's
`minValue` and `maxValue` — including a value exactly equal to `maxValue` —
the bin id `((value - minValue) / binWidth) | 0` lies in `[0, numBins)`,
so such increments target existing entries of the bins array.  The
range restriction is necessary: the aggregation's broken running maximum
(see the C5 counterexample) can report a `maxValue` below actual column
values, and a defined value above the binning's `maxValue` produces a bin
id at or beyond `numBins`. -/
theorem histogram_binId_within_bins (mn mx : ℚ) (cd : ℕ) (integral : Bool) (nv goal : ℕ)
    (v : ℚ)
    (hb : 1 < (histogramAdjustBinning (calculateBinning mn mx cd integral nv goal)).numBins)
    (h1 : (histogramAdjustBinning (calculateBinning mn mx cd integral nv goal)).minValue ≤ v)
    (h2 : v ≤ (histogramAdjustBinning (calculateBinning mn mx cd integral nv goal)).maxValue) :
    0 ≤ histogramBinId (histogramAdjustBinning (calculateBinning mn mx cd integral nv goal)) v ∧
      histogramBinId (histogramAdjustBinning (calculateBinning mn mx cd integral nv goal)) v <
        ((histogramAdjustBinning (calculateBinning mn mx cd integral nv goal)).numBins : ℤ) := by
  set b0 := calculateBinning mn mx cd integral nv goal with hb0def
  by_cases hadj : b0.maxValue = b0.minValue
  · rw [histogramAdjustBinning, if_pos hadj] at hb
    simp at hb
  · rw [histogramAdjustBinning, if_neg hadj] at hb h1 h2 ⊢
    simp only [calculateBinning] at hb0def
    split at hb0def
    · -- integral small-distinct path: one bin per distinct value
      rw [hb0def] at hb h1 h2 hadj ⊢
      simp only [histogramBinId] at *
      have hmn : mn < mx := lt_of_le_of_ne (le_trans h1 h2) fun hc => hadj hc.symm
      exact binId_bounds_linear mn mx nv v hb hmn h1 h2
    · split at hb0def
      · -- explicit goal-bin-count path
        rw [hb0def] at hb h1 h2 hadj ⊢
        simp only [histogramBinId] at *
        have hmn : mn < mx := lt_of_le_of_ne (le_trans h1 h2) fun hc => hadj hc.symm
        exact binId_bounds_linear mn mx goal v hb hmn h1 h2
      · split at hb0def
        · -- negative range: default binning, excluded by the bin-count hypothesis
          rw [hb0def] at hb
          simp at hb
        · -- snapping path: resolve the two width loops
          rcases happrox : approxWidthLoop (mx - mn) 10 binningFuel with _ | w1
          · rw [happrox] at hb0def
            rw [hb0def] at hb
            simp at hb
          · rw [happrox] at hb0def
            dsimp only at hb0def
            rcases hrefine : refineWidthLoop (mx - mn) (max 3 (goalBinsFor nv / 2 - 1))
              (goalBinsFor nv) w1 binningFuel with _ | w
            · rw [hrefine] at hb0def
              rw [hb0def] at hb
              simp at hb
            · rw [hrefine] at hb0def
              dsimp only at hb0def
              have hw1 : (0 : ℚ) < w1 :=
                approxWidthLoop_pos (mx - mn) binningFuel 10 w1 (by norm_num) happrox
              have hw : (0 : ℚ) < w :=
                refineWidthLoop_pos (mx - mn) _ _ binningFuel w1 w hw1 hrefine
              rw [hb0def] at hb h1 h2 hadj ⊢
              simp only [histogramBinId] at *
              exact binId_bounds_snapped mn mx w v hw h1 h2

attribute [local semireducible] Rat.mul Rat.add Rat.sub Rat.inv

/-- Witness for C10 at min 0, max 10, 30 distinct values, 100 values, no
explicit goal: the snapping path chooses width 2 over `[0, 10]` with 6
bins, and the value 10 — exactly the binning's `maxValue` — truncates to
bin 5, inside `[0, 6)`. -/
theorem histogram_binId_within_bins_witness :
    (1 < (histogramAdjustBinning (calculateBinning 0 10 30 true 100 0)).numBins ∧
        (histogramAdjustBinning (calculateBinning 0 10 30 true 100 0)).minValue ≤ 10 ∧
        (10 : ℚ) ≤ (histogramAdjustBinning (calculateBinning 0 10 30 true 100 0)).maxValue) ∧
      (0 ≤ histogramBinId (histogramAdjustBinning (calculateBinning 0 10 30 true 100 0)) 10 ∧
        histogramBinId (histogramAdjustBinning (calculateBinning 0 10 30 true 100 0)) 10 <
          ((histogramAdjustBinning (calculateBinning 0 10 30 true 100 0)).numBins : ℤ)) :=
  ⟨⟨by decide, by decide, by decide⟩,
    histogram_binId_within_bins 0 10 30 true 100 0 10 (by decide) (by decide) (by decide)⟩

/-- C10 (counterexample): on the integer column `[5, 1, 2]` the numeric
aggregation's broken `else if` reports `minValue = 1` and `maxValue = 2`
although 5 is a defined column value, and `countDistinct = 3`.  `histogram`
hands exactly these aggregation values to `calculateBinning` (with
`numValues = countDistinct` and no explicit goal), whose integral path
yields 3 bins of width 1/2 over `[1, 2]`.  The defined value 5 at the
supplied indices then gets bin id `((5 - 1) / (1/2)) | 0 = 8`, which does
NOT lie within `[0, 3)`: `bins[8]++` targets no existing entry of the
3-entry bins array, refuting the claim as stated. -/
theorem histogram_binId_escapes_bins :
    (fixedAllocationNumericAggregations [some 5, some 1, some 2]).minValue = some 1 ∧
      (fixedAllocationNumericAggregations [some 5, some 1, some 2]).maxValue = some 2 ∧
      (countDistinctRun 500 [some 5, some 1, some 2]).numDistinct = 3 ∧
      numberSignifiesUndefined (some 5) = false ∧
      (histogramAdjustBinning (calculateBinning 1 2 3 true 3 0)).numBins = 3 ∧
      histogramBinId (histogramAdjustBinning (calculateBinning 1 2 3 true 3 0)) 5 = 8 ∧
      ¬ (histogramBinId (histogramAdjustBinning (calculateBinning 1 2 3 true 3 0)) 5 <
          ((histogramAdjustBinning (calculateBinning 1 2 3 true 3 0)).numBins : ℤ)) := by
  decide

end Spec2Proof
